import Mathlib

/-!
Formal model of the hybrid song-recommendation engine of this repository:

* `src/sim_preprocess.py` — corpus index building (`compute_idf`,
  `compute_song_norms`);
* `src/app/irsystem/sim.py` — the lyrical scorer (`lyrics_sim`), the audio
  scorer (`af_sim`) and the fusion / ranking logic of `main`.

Modelling conventions:

* Python dicts are association lists `List (ℕ × β)` with unique keys;
  insertion order is preserved exactly as CPython preserves it.  Song URIs
  and tokens are numbered by `ℕ`.
* numpy floats are modelled by `ℝ`.  A float division whose denominator is
  zero yields NaN (numpy emits a warning, not an exception); NaN is modelled
  by `Option ℝ = none` via `divF`.  A Python dict access that raises
  `KeyError` makes the whole call fail, modelled by an outer `Option`.
* `np.sqrt` is `Real.sqrt` and `np.log2 x` is `Real.logb 2 x`.
* The ranking stage of `main` is modelled over exact rational scores; it
  performs only additions, multiplications and comparisons on the score
  values coming from the two scorers.
-/

namespace SongRec

/-! ## Association-list dictionaries -/

/-- First-occurrence lookup in an association list, i.e. `d[k]` returning
`none` instead of raising `KeyError`. -/
def lookupKey {β : Type} (k : ℕ) : List (ℕ × β) → Option β
  | [] => none
  | p :: ps => if p.1 = k then some p.2 else lookupKey k ps

/-- Python `d.get(k, dflt)`. -/
def lookupD {β : Type} (d : List (ℕ × β)) (k : ℕ) (dflt : β) : β :=
  (lookupKey k d).getD dflt

/-- The key list of a dictionary, in insertion order. -/
def keysOf {β : Type} (d : List (ℕ × β)) : List ℕ :=
  d.map Prod.fst

/-- Python `m[k] = m.get(k, 0) + x` on a dict: update in place if the key is
present, otherwise append at the end. -/
def upsertAdd (m : List (ℕ × ℝ)) (k : ℕ) (x : ℝ) : List (ℕ × ℝ) :=
  if (lookupKey k m).isSome then
    m.map (fun p => if p.1 = k then (p.1, p.2 + x) else p)
  else m ++ [(k, x)]

/-- A loop `for (k, x) in ps: m[k] = m.get(k, 0) + x`. -/
def addAll (m : List (ℕ × ℝ)) (ps : List (ℕ × ℝ)) : List (ℕ × ℝ) :=
  ps.foldl (fun acc p => upsertAdd acc p.1 p.2) m

/-- Total value accumulated for key `k` by a list of `(key, value)`
contributions. -/
def sumKey (ps : List (ℕ × ℝ)) (k : ℕ) : ℝ :=
  (ps.map (fun p => if p.1 = k then p.2 else 0)).sum

/-- `l.mapM f` for the `Option` monad, written as plain recursion: the first
`none` (a raised `KeyError` in the source) aborts the whole computation. -/
def optMap {α β : Type} (f : α → Option β) : List α → Option (List β)
  | [] => some []
  | a :: as =>
    match f a with
    | none => none
    | some b => (optMap f as).map (fun bs => b :: bs)

/-! ## `src/sim_preprocess.py` -/

/-- `compute_idf(inv_idx, n_docs, min_df, max_df_ratio)`:
for each token with posting list length `df`, keep it with value
`log2(n_docs / (1 + df))` iff `df >= min_df` and `df / n_docs <= max_df_ratio`.
The inverted index maps a token to its posting list of
`(song-id, term frequency)` pairs. -/
noncomputable def compute_idf (inv_idx : List (ℕ × List (ℕ × ℕ))) (n_docs : ℕ)
    (min_df : ℕ) (max_df_ratio : ℚ) : List (ℕ × ℝ) :=
  inv_idx.filterMap (fun wp =>
    if min_df ≤ wp.2.length ∧ (wp.2.length : ℚ) / (n_docs : ℚ) ≤ max_df_ratio then
      some (wp.1, Real.logb 2 ((n_docs : ℝ) / (1 + (wp.2.length : ℝ))))
    else none)

/-- The `(uri, (tf * idf_dict.get(word, 0))**2)` contributions scanned by the
double loop of `compute_song_norms`. -/
noncomputable def norm_contribs (inv_idx : List (ℕ × List (ℕ × ℕ)))
    (idf_dict : List (ℕ × ℝ)) : List (ℕ × ℝ) :=
  inv_idx.flatMap (fun wp =>
    wp.2.map (fun ut => (ut.1, ((ut.2 : ℝ) * lookupD idf_dict wp.1 0) ^ 2)))

/-- The accumulated dict of `compute_song_norms` before the final square
root. -/
noncomputable def compute_song_norms_sq (inv_idx : List (ℕ × List (ℕ × ℕ)))
    (idf_dict : List (ℕ × ℝ)) : List (ℕ × ℝ) :=
  addAll [] (norm_contribs inv_idx idf_dict)

/-- `compute_song_norms(inv_idx, idf_dict)`:
`song_norms[uri] = song_norms.get(uri, 0) + (tf * idf_dict.get(word, 0))**2`
over every posting entry, then `sqrt` of every accumulated value. -/
noncomputable def compute_song_norms (inv_idx : List (ℕ × List (ℕ × ℕ)))
    (idf_dict : List (ℕ × ℝ)) : List (ℕ × ℝ) :=
  (compute_song_norms_sq inv_idx idf_dict).map (fun p => (p.1, Real.sqrt p.2))

/-! ## `src/app/irsystem/sim.py` — the lyrical scorer -/

/-- numpy float division.  When the denominator is `0` the source produces
NaN (the numerator is a float, so numpy warns instead of raising); NaN is
modelled as `none`.  There is no zero-denominator guard in the source. -/
noncomputable def divF (x d : ℝ) : Option ℝ :=
  if d = 0 then none else some (x / d)

/-- The `query_tfidf` dict of `lyrics_sim`: for each query token present in
`idf_dict`, its `count * idf` weight. -/
noncomputable def query_tfidf (query : List (ℕ × ℕ)) (idf_dict : List (ℕ × ℝ)) :
    List (ℕ × ℝ) :=
  query.filterMap (fun tc =>
    (lookupKey tc.1 idf_dict).map (fun v => (tc.1, (tc.2 : ℕ) * v)))

/-- The `query_norm` of `lyrics_sim`: square root of the sum of squared
query TF-IDF weights. -/
noncomputable def queryNorm (query : List (ℕ × ℕ)) (idf_dict : List (ℕ × ℝ)) : ℝ :=
  Real.sqrt (((query_tfidf query idf_dict).map (fun p => p.2 ^ 2)).sum)

/-- The `(doc_id, tf * idf_dict[t] * query_tfidf[t])` contributions scanned
by the accumulation loop of `lyrics_sim`.  A token absent from the inverted
index has the empty posting list (`inv_idx` is a pickled `defaultdict(list)`). -/
noncomputable def score_contribs (query : List (ℕ × ℕ))
    (inv_idx : List (ℕ × List (ℕ × ℕ))) (idf_dict : List (ℕ × ℝ)) :
    List (ℕ × ℝ) :=
  (query_tfidf query idf_dict).flatMap (fun tq =>
    (lookupD inv_idx tq.1 []).map (fun ut =>
      (ut.1, (ut.2 : ℕ) * lookupD idf_dict tq.1 0 * tq.2)))

/-- The `doc_scores` dict of `lyrics_sim` before normalization. -/
noncomputable def doc_scores (query : List (ℕ × ℕ))
    (inv_idx : List (ℕ × List (ℕ × ℕ))) (idf_dict : List (ℕ × ℝ)) :
    List (ℕ × ℝ) :=
  addAll [] (score_contribs query inv_idx idf_dict)

/-- `lyrics_sim(query_lyrics_cnt, inv_idx, idf_dict, song_norms_dict)`:
accumulate the sparse dot products, then divide each by
`song_norms_dict[doc_id] * query_norm`.  The `song_norms_dict[doc_id]`
access raises `KeyError` on a missing id (outer `none`); a zero denominator
yields NaN (inner `none`). -/
noncomputable def lyrics_sim (query : List (ℕ × ℕ))
    (inv_idx : List (ℕ × List (ℕ × ℕ))) (idf_dict : List (ℕ × ℝ))
    (song_norms_dict : List (ℕ × ℝ)) : Option (List (ℕ × Option ℝ)) :=
  optMap (fun p =>
      (lookupKey p.1 song_norms_dict).map (fun nd =>
        (p.1, divF p.2 (nd * queryNorm query idf_dict))))
    (doc_scores query inv_idx idf_dict)

/-! ## `src/app/irsystem/sim.py` — the audio scorer -/

/-- Dot product of two feature rows (`af_matrix.dot(query_vec)` rowwise). -/
def rowDot (xs ys : List ℝ) : ℝ :=
  (List.zipWith (fun a b => a * b) xs ys).sum

/-- Squared L2 norm of a feature vector. -/
def normSq (xs : List ℝ) : ℝ :=
  (xs.map (fun x => x ^ 2)).sum

/-- L2 norm of a feature vector (`np.linalg.norm`). -/
noncomputable def vecNorm (xs : List ℝ) : ℝ :=
  Real.sqrt (normSq xs)

/-- `af_song_norms = np.linalg.norm(af_matrix, axis=1)` from
`get_af_matrix_data`. -/
noncomputable def af_norms (m : List (List ℝ)) : List ℝ :=
  m.map vecNorm

/-- `af_sim(query_af, af_matrix, af_song_norms, ix_to_uri, scaler)` without
the unused `indices` argument (`main` always calls it with `indices=None`;
the subset branch is marked broken by a TODO in the source and never runs).
The fitted `StandardScaler.transform` is an opaque vector transform.
`scores = af_matrix.dot(query_vec) / (query_norm * af_song_norms)`,
keyed by `ix_to_uri[i]`. -/
noncomputable def af_sim (query_af : List ℝ) (af_matrix : List (List ℝ))
    (af_song_norms : List ℝ) (ix_to_uri : ℕ → ℕ) (scaler : List ℝ → List ℝ) :
    List (ℕ × Option ℝ) :=
  (List.range af_matrix.length).map (fun i =>
    (ix_to_uri i,
      divF (rowDot (af_matrix.getD i []) (scaler query_af))
        (vecNorm (scaler query_af) * af_song_norms.getD i 0)))

/-! ## `src/app/irsystem/sim.py` — fusion, ranking and filtering (`main`)

The ranking stage operates on the two score maps; its arithmetic is modelled
over `ℚ`.  The artist/track metadata of `vars_dict['uri_to_song']` is a
total map from song ids, and the `match` helper of `app/irsystem/utils.py`
(absent from `src/`) is an opaque `String → String → Bool` parameter: none
of the ranking claims depend on its internals. -/

/-- The sort order of `ranked = sorted(..., key=lambda x: (-x[1], x[0]))`:
descending score, ties broken by ascending song id. -/
def rankRel (p q : ℕ × ℚ) : Prop :=
  q.2 < p.2 ∨ (p.2 = q.2 ∧ p.1 ≤ q.1)

instance : DecidableRel rankRel := fun p q => by
  unfold rankRel
  infer_instance

instance : IsTotal (ℕ × ℚ) rankRel where
  total p q := by
    unfold rankRel
    rcases lt_trichotomy p.2 q.2 with h | h | h
    · exact Or.inr (Or.inl h)
    · rcases le_total p.1 q.1 with h1 | h1
      · exact Or.inl (Or.inr ⟨h, h1⟩)
      · exact Or.inr (Or.inr ⟨h.symm, h1⟩)
    · exact Or.inl (Or.inl h)

instance : IsTrans (ℕ × ℚ) rankRel where
  trans p q s hpq hqs := by
    unfold rankRel at *
    rcases hpq with h1 | ⟨h1, h1'⟩ <;> rcases hqs with h2 | ⟨h2, h2'⟩
    · exact Or.inl (h2.trans h1)
    · exact Or.inl (h2 ▸ h1)
    · exact Or.inl (h1 ▸ h2)
    · exact Or.inr ⟨h1.trans h2, h1'.trans h2'⟩

instance : IsAntisymm (ℕ × ℚ) rankRel where
  antisymm p q hpq hqp := by
    unfold rankRel at *
    rcases hpq with h1 | ⟨h1, h1'⟩ <;> rcases hqp with h2 | ⟨h2, h2'⟩
    · exact absurd (h1.trans h2) (lt_irrefl _)
    · exact absurd h1 (h2 ▸ lt_irrefl _)
    · exact absurd h2 (h1 ▸ lt_irrefl _)
    · exact Prod.ext (le_antisymm h1' h2') h1

/-- `sorted(averaged_scores.items(), key=lambda x: (-x[1], x[0]))`.
Python's sort is stable, but `rankRel` is antisymmetric on `(id, score)`
pairs, so the sorted permutation is unique (`C5_ranking_deterministic`) and
any sorting algorithm models it. -/
def rankSort (scores : List (ℕ × ℚ)) : List (ℕ × ℚ) :=
  List.insertionSort rankRel scores

/-- The survival condition of the output loop of `main`:
`uri != query_uri and not match(artist, query_artist) and
not match(name, query_name)`. -/
def keepCand (query_uri : ℕ) (query_artist query_name : String)
    (matchF : String → String → Bool) (artistOf trackOf : ℕ → String)
    (p : ℕ × ℚ) : Bool :=
  decide (p.1 ≠ query_uri) && !(matchF (artistOf p.1) query_artist) &&
    !(matchF (trackOf p.1) query_name)

/-- The ranking/filtering/truncation loop of `main`: scan the first
`n_results` ranked candidates (`while i < len(ranked) and i < n_results`),
keep the survivors, and return `(score, song)` pairs. -/
def rankAndFilter (scores : List (ℕ × ℚ)) (query_uri : ℕ)
    (query_artist query_name : String) (matchF : String → String → Bool)
    (artistOf trackOf : ℕ → String) (n_results : ℕ) : List (ℚ × ℕ) :=
  (((rankSort scores).take n_results).filter
      (keepCand query_uri query_artist query_name matchF artistOf trackOf)).map
    (fun p => (p.2, p.1))

/-- `averaged_scores = {k: af[k]*(1-w) + lyr[k]*w for k in lyric_sim_scores}`:
keys come from the lyrical map; the `af_sim_scores[k]` access raises
`KeyError` if a lyric-scored song has no audio score. -/
def fuseScores (af_scores lyr_scores : List (ℕ × ℚ)) (w : ℚ) :
    Option (List (ℕ × ℚ)) :=
  optMap (fun p =>
      (lookupKey p.1 af_scores).map (fun a => (p.1, a * (1 - w) + p.2 * w)))
    lyr_scores

/-- The outcomes of `main`: the three distinguished "not found" early
returns (each prints its own message and returns `None` without a ranking),
the uncaught `KeyError` of the fusion dict comprehension, and a successful
ranking. -/
inductive MainOutcome where
  | songNotFound
  | afNotFound
  | lyricsNotFound
  | fusionKeyError
  | ok (output : List (ℚ × ℕ))
  deriving DecidableEq

/-- Python truthiness of `retrieve_lyrics`'s result:
`if not query_lyrics_cnt` is taken when no lyrics were found (`None`) or the
retrieved token counter is empty. -/
def truthy : Option (List (ℕ × ℕ)) → Bool
  | none => false
  | some c => !c.isEmpty

/-- The control flow of `main`.  External effects are inputs: `resolved` is
`get_song_uri`'s result (consulted only when `is_uri` is false), `query_af`
the artist/track metadata returned by `get_audio_features`, `lyrics` the
counter returned by `retrieve_lyrics`, and `af_scores` / `lyr_scores` the
score maps produced by `af_sim` / `lyrics_sim`.  `query_artist` /
`query_name` are the lowercased, stripped query strings main derives before
filtering. -/
def mainModel (is_uri : Bool) (query : ℕ) (resolved : Option ℕ)
    (query_af : Option (String × String)) (lyrics : Option (List (ℕ × ℕ)))
    (lyrics_weight : ℚ) (n_results : ℕ) (af_scores lyr_scores : List (ℕ × ℚ))
    (query_artist query_name : String) (matchF : String → String → Bool)
    (artistOf trackOf : ℕ → String) : MainOutcome :=
  match (if is_uri then some query else resolved) with
  | none => MainOutcome.songNotFound
  | some query_uri =>
    match query_af with
    | none => MainOutcome.afNotFound
    | some _ =>
      if lyrics_weight = 0 then
        MainOutcome.ok (rankAndFilter af_scores query_uri query_artist
          query_name matchF artistOf trackOf n_results)
      else if truthy lyrics = false then MainOutcome.lyricsNotFound
      else
        match fuseScores af_scores lyr_scores lyrics_weight with
        | none => MainOutcome.fusionKeyError
        | some averaged =>
          MainOutcome.ok (rankAndFilter averaged query_uri query_artist
            query_name matchF artistOf trackOf n_results)

/-! ## The fuzzy string matcher (concrete instance)

`match` lives in `app/irsystem/utils.py`, which is not under `src/`. -/

/-- ASCII lowercasing of one character. -/
def lowerChar (c : Char) : Char :=
  if 'A' ≤ c ∧ c ≤ 'Z' then Char.ofNat (c.toNat + 32) else c

/-- Case/punctuation-insensitive normalization of a name: lowercase and keep
only alphanumeric characters. -/
def normStr (s : String) : List Char :=
  (s.data.map lowerChar).filter Char.isAlphanum

/-- Bool test that `small` starts `big`. -/
def headMatches : List Char → List Char → Bool
  | [], _ => true
  | _ :: _, [] => false
  | a :: as, b :: bs => a == b && headMatches as bs

/-- Bool test that `small` occurs contiguously inside `big`. -/
def hasSub (small : List Char) : List Char → Bool
  | [] => headMatches small []
  | b :: bs => headMatches small (b :: bs) || hasSub small bs

/-- Modelled from the spec: the `match` helper of `app/irsystem/utils.py`
(absent from `src/`) — a "case/punctuation/diacritic-insensitive
substring-or-equality comparison" of two names.  Used only to instantiate
the opaque `matchF` parameter on concrete inputs; the ranking theorems hold
for every `matchF`. -/
def fuzzyMatch (a b : String) : Bool :=
  normStr a == normStr b || hasSub (normStr a) (normStr b) ||
    hasSub (normStr b) (normStr a)

/-- The term frequency of song `j` for token `t` in the inverted index
(`0` when absent), as a real number. -/
def dtf (inv_idx : List (ℕ × List (ℕ × ℕ))) (j t : ℕ) : ℝ :=
  (((lookupKey j (lookupD inv_idx t [])).getD 0 : ℕ) : ℝ)

/-! ### Lookup lemmas -/

theorem lookupKey_isSome_iff {β : Type} {d : List (ℕ × β)} {k : ℕ} :
    (lookupKey k d).isSome ↔ k ∈ keysOf d := by
  induction d with
  | nil => simp [lookupKey, keysOf]
  | cons p ps ih =>
    by_cases h : p.1 = k
    · simp [lookupKey, keysOf, h]
    · have h' : ¬ k = p.1 := fun hk => h hk.symm
      simp [lookupKey, keysOf, h, h', ih]

theorem lookupKey_eq_none_iff {β : Type} {d : List (ℕ × β)} {k : ℕ} :
    lookupKey k d = none ↔ k ∉ keysOf d := by
  rw [← lookupKey_isSome_iff, Option.isSome_iff_ne_none]
  tauto

theorem lookupKey_mem {β : Type} {d : List (ℕ × β)} {k : ℕ} {v : β}
    (h : lookupKey k d = some v) : (k, v) ∈ d := by
  induction d with
  | nil => simp [lookupKey] at h
  | cons p ps ih =>
    by_cases hp : p.1 = k
    · simp [lookupKey, hp] at h
      subst hp h
      simp
    · simp [lookupKey, hp] at h
      simpa using Or.inr (ih h)

theorem mem_lookupKey {β : Type} {d : List (ℕ × β)} {k : ℕ} {v : β}
    (hd : (keysOf d).Nodup) (h : (k, v) ∈ d) : lookupKey k d = some v := by
  induction d with
  | nil => simp at h
  | cons p ps ih =>
    have hd' := List.nodup_cons.mp hd
    rcases List.mem_cons.mp h with h1 | h1
    · subst h1
      simp [lookupKey]
    · have hk : p.1 ≠ k := by
        intro hpk
        exact hd'.1 (by simpa [hpk] using List.mem_map_of_mem Prod.fst h1)
      simp [lookupKey, hk]
      exact ih hd'.2 h1

theorem lookupKey_map_snd {β γ : Type} (g : β → γ) (d : List (ℕ × β)) (k : ℕ) :
    lookupKey k (d.map (fun p => (p.1, g p.2))) = (lookupKey k d).map g := by
  induction d with
  | nil => simp [lookupKey]
  | cons p ps ih =>
    by_cases h : p.1 = k
    · subst h
      simp [lookupKey]
    · simp [lookupKey, h, ih]

theorem keysOf_map_snd {β γ : Type} (g : β → γ) (d : List (ℕ × β)) :
    keysOf (d.map (fun p => (p.1, g p.2))) = keysOf d := by
  induction d with
  | nil => rfl
  | cons p ps ih =>
    simp only [keysOf, List.map_cons] at *
    rw [ih]

/-! ### Accumulation lemmas -/

theorem lookupKey_append_single {k j : ℕ} {x : ℝ} (m : List (ℕ × ℝ)) :
    lookupKey j (m ++ [(k, x)]) =
      ((lookupKey j m).or (if k = j then some x else none)) := by
  induction m with
  | nil => simp [lookupKey]
  | cons p ps ih =>
    by_cases h : p.1 = j
    · simp [lookupKey, h]
    · simp [lookupKey, h, ih]

theorem lookupKey_mapAdd (m : List (ℕ × ℝ)) (k : ℕ) (x : ℝ) (j : ℕ) :
    lookupKey j (m.map (fun p => if p.1 = k then (p.1, p.2 + x) else p)) =
      if j = k then (lookupKey j m).map (fun v => v + x) else lookupKey j m := by
  induction m with
  | nil => simp [lookupKey]
  | cons p ps ih =>
    by_cases hp : p.1 = k
    · subst hp
      by_cases hj : j = p.1
      · subst hj
        simp [lookupKey]
      · have hj' : ¬ p.1 = j := fun h => hj h.symm
        simp only [List.map_cons, if_pos rfl, lookupKey, ih, if_neg hj]
        simp [hj']
    · by_cases hpj : p.1 = j
      · have hj : ¬ j = k := fun h => hp (hpj.trans h)
        simp [lookupKey, hp, hpj, hj]
      · simp only [List.map_cons, if_neg hp, lookupKey, if_neg hpj, ih]

theorem lookupKey_upsertAdd (m : List (ℕ × ℝ)) (k : ℕ) (x : ℝ) (j : ℕ) :
    lookupKey j (upsertAdd m k x) =
      if j = k then some (lookupD m k 0 + x) else lookupKey j m := by
  unfold upsertAdd
  by_cases hs : (lookupKey k m).isSome
  · rw [if_pos hs, lookupKey_mapAdd]
    by_cases hj : j = k
    · subst hj
      obtain ⟨v, hv⟩ := Option.isSome_iff_exists.mp hs
      simp [hv, lookupD]
    · simp [hj]
  · rw [if_neg hs]
    rw [Option.not_isSome_iff_eq_none] at hs
    rw [lookupKey_append_single]
    by_cases hj : j = k
    · subst hj
      simp [hs, lookupD]
    · have hk' : ¬ k = j := fun h => hj h.symm
      simp [hj, hk']

theorem keysOf_upsertAdd_subset (m : List (ℕ × ℝ)) (k : ℕ) (x : ℝ) (j : ℕ) :
    j ∈ keysOf (upsertAdd m k x) ↔ j ∈ keysOf m ∨ j = k := by
  constructor
  · intro h
    by_cases hj : j = k
    · exact Or.inr hj
    · left
      rw [← lookupKey_isSome_iff] at h ⊢
      rw [lookupKey_upsertAdd, if_neg hj] at h
      exact h
  · intro h
    rw [← lookupKey_isSome_iff]
    rw [lookupKey_upsertAdd]
    by_cases hj : j = k
    · simp [hj]
    · rcases h with h | h
      · rw [if_neg hj, lookupKey_isSome_iff]
        exact h
      · exact absurd h hj

theorem nodup_keysOf_upsertAdd (m : List (ℕ × ℝ)) (k : ℕ) (x : ℝ)
    (hm : (keysOf m).Nodup) : (keysOf (upsertAdd m k x)).Nodup := by
  unfold upsertAdd
  by_cases hs : (lookupKey k m).isSome
  · rw [if_pos hs]
    have : keysOf (m.map (fun p => if p.1 = k then (p.1, p.2 + x) else p)) = keysOf m := by
      unfold keysOf
      rw [List.map_map]
      congr 1
      funext p
      by_cases h : p.1 = k <;> simp [h]
    rw [this]
    exact hm
  · rw [if_neg hs]
    unfold keysOf
    rw [List.map_append]
    simp only [List.map_cons, List.map_nil]
    rw [List.nodup_append]
    refine ⟨hm, List.nodup_singleton k, ?_⟩
    intro a ha hb
    simp at hb
    subst hb
    rw [Option.not_isSome_iff_eq_none, lookupKey_eq_none_iff] at hs
    exact hs ha

theorem sumKey_nil (k : ℕ) : sumKey [] k = 0 := rfl

theorem sumKey_cons (p : ℕ × ℝ) (ps : List (ℕ × ℝ)) (k : ℕ) :
    sumKey (p :: ps) k = (if p.1 = k then p.2 else 0) + sumKey ps k := by
  simp [sumKey]

theorem sumKey_append (ps qs : List (ℕ × ℝ)) (k : ℕ) :
    sumKey (ps ++ qs) k = sumKey ps k + sumKey qs k := by
  simp [sumKey]

theorem sumKey_flatMap {α : Type} (l : List α) (f : α → List (ℕ × ℝ)) (k : ℕ) :
    sumKey (l.flatMap f) k = (l.map (fun a => sumKey (f a) k)).sum := by
  induction l with
  | nil => simp [sumKey]
  | cons a as ih => simp [List.flatMap_cons, sumKey_append, ih]

theorem sumKey_eq_zero_of_not_mem {ps : List (ℕ × ℝ)} {k : ℕ}
    (h : k ∉ keysOf ps) : sumKey ps k = 0 := by
  induction ps with
  | nil => rfl
  | cons p ps ih =>
    simp [keysOf] at h
    rw [sumKey_cons, if_neg (fun hp => h.1 hp.symm), ih (by simp [keysOf]; exact h.2)]
    ring

theorem lookupD_addAll (m : List (ℕ × ℝ)) (ps : List (ℕ × ℝ)) (j : ℕ) :
    lookupD (addAll m ps) j 0 = lookupD m j 0 + sumKey ps j := by
  induction ps generalizing m with
  | nil => simp [addAll, sumKey]
  | cons p ps ih =>
    show lookupD (addAll (upsertAdd m p.1 p.2) ps) j 0 = _
    rw [ih, sumKey_cons]
    unfold lookupD
    rw [lookupKey_upsertAdd]
    by_cases hj : j = p.1
    · subst hj
      simp [lookupD]
      ring
    · rw [if_neg hj, if_neg (fun h => hj h.symm)]
      ring

theorem mem_keysOf_addAll (m : List (ℕ × ℝ)) (ps : List (ℕ × ℝ)) (j : ℕ) :
    j ∈ keysOf (addAll m ps) ↔ j ∈ keysOf m ∨ j ∈ keysOf ps := by
  induction ps generalizing m with
  | nil => simp [addAll, keysOf]
  | cons p ps ih =>
    show j ∈ keysOf (addAll (upsertAdd m p.1 p.2) ps) ↔ _
    rw [ih, keysOf_upsertAdd_subset]
    simp [keysOf]
    tauto

theorem nodup_keysOf_addAll (m : List (ℕ × ℝ)) (ps : List (ℕ × ℝ))
    (hm : (keysOf m).Nodup) : (keysOf (addAll m ps)).Nodup := by
  induction ps generalizing m with
  | nil => exact hm
  | cons p ps ih => exact ih _ (nodup_keysOf_upsertAdd _ _ _ hm)

theorem lookupKey_addAll_nil (ps : List (ℕ × ℝ)) (j : ℕ) (h : j ∈ keysOf ps) :
    lookupKey j (addAll [] ps) = some (sumKey ps j) := by
  have hmem : j ∈ keysOf (addAll [] ps) := by
    rw [mem_keysOf_addAll]
    exact Or.inr h
  rw [← lookupKey_isSome_iff] at hmem
  obtain ⟨v, hv⟩ := Option.isSome_iff_exists.mp hmem
  have := lookupD_addAll [] ps j
  unfold lookupD at this
  rw [hv] at this
  simp [lookupKey] at this
  rw [hv, this]

theorem lookupKey_addAll_nil_none (ps : List (ℕ × ℝ)) (j : ℕ)
    (h : j ∉ keysOf ps) : lookupKey j (addAll [] ps) = none := by
  rw [lookupKey_eq_none_iff, mem_keysOf_addAll]
  intro hmem
  rcases hmem with h1 | h1
  · simp [keysOf] at h1
  · exact h h1

/-! ## Helper lemmas about the embedded functions -/

theorem keysOf_filterMap_sublist {β γ : Type} (f : (ℕ × β) → Option (ℕ × γ))
    (hf : ∀ p q, f p = some q → q.1 = p.1) (l : List (ℕ × β)) :
    (keysOf (l.filterMap f)).Sublist (keysOf l) := by
  induction l with
  | nil => simp [keysOf]
  | cons p ps ih =>
    rw [List.filterMap_cons]
    cases hfp : f p with
    | none =>
      unfold keysOf
      simp only [List.map_cons]
      exact ih.cons p.1
    | some q =>
      unfold keysOf
      simp only [List.map_cons]
      rw [hf p q hfp]
      exact ih.cons₂ p.1

theorem optMap_eq_some_of_forall {α β : Type} (f : α → Option β) (l : List α)
    (h : ∀ a ∈ l, (f a).isSome) : ∃ bs, optMap f l = some bs := by
  induction l with
  | nil => exact ⟨[], rfl⟩
  | cons a as ih =>
    obtain ⟨b, hb⟩ := Option.isSome_iff_exists.mp (h a (List.mem_cons_self a as))
    obtain ⟨bs, hbs⟩ := ih (fun x hx => h x (List.mem_cons_of_mem a hx))
    exact ⟨b :: bs, by simp [optMap, hb, hbs]⟩

theorem optMap_mem_of_eq_some {α β : Type} {f : α → Option β} {l : List α}
    {bs : List β} (h : optMap f l = some bs) :
    ∀ b ∈ bs, ∃ a ∈ l, f a = some b := by
  induction l generalizing bs with
  | nil =>
    simp [optMap] at h
    subst h
    simp
  | cons a as ih =>
    unfold optMap at h
    cases hfa : f a with
    | none => rw [hfa] at h; exact absurd h (by simp)
    | some b0 =>
      rw [hfa] at h
      cases hrest : optMap f as with
      | none => rw [hrest] at h; exact absurd h (by simp)
      | some bs0 =>
        rw [hrest] at h
        simp at h
        subst h
        intro b hb
        rcases List.mem_cons.mp hb with hb | hb
        · exact ⟨a, List.mem_cons_self a as, hb ▸ hfa⟩
        · obtain ⟨a', ha', hfa'⟩ := ih hrest b hb
          exact ⟨a', List.mem_cons_of_mem a ha', hfa'⟩

theorem optMap_forall_mem {α β : Type} {f : α → Option β} {l : List α}
    {bs : List β} (h : optMap f l = some bs) :
    ∀ a ∈ l, ∃ b ∈ bs, f a = some b := by
  induction l generalizing bs with
  | nil => simp
  | cons a as ih =>
    unfold optMap at h
    cases hfa : f a with
    | none => rw [hfa] at h; exact absurd h (by simp)
    | some b0 =>
      rw [hfa] at h
      cases hrest : optMap f as with
      | none => rw [hrest] at h; exact absurd h (by simp)
      | some bs0 =>
        rw [hrest] at h
        simp at h
        subst h
        intro x hx
        rcases List.mem_cons.mp hx with hx | hx
        · exact ⟨b0, List.mem_cons_self b0 bs0, hx ▸ hfa⟩
        · obtain ⟨b, hb, hfb⟩ := ih hrest x hx
          exact ⟨b, List.mem_cons_of_mem b0 hb, hfb⟩

theorem mem_keysOf_compute_song_norms {inv_idx : List (ℕ × List (ℕ × ℕ))}
    {idf_dict : List (ℕ × ℝ)} {j : ℕ} :
    j ∈ keysOf (compute_song_norms inv_idx idf_dict) ↔
      ∃ w ∈ inv_idx, ∃ ut ∈ w.2, ut.1 = j := by
  unfold compute_song_norms
  rw [keysOf_map_snd]
  unfold compute_song_norms_sq
  rw [mem_keysOf_addAll]
  constructor
  · intro h
    rcases h with h | h
    · exact absurd h (by simp [keysOf])
    · unfold norm_contribs keysOf at h
      obtain ⟨p, hp, hpj⟩ := List.mem_map.mp h
      obtain ⟨w, hw, hp2⟩ := List.mem_flatMap.mp hp
      obtain ⟨ut, hut, hutp⟩ := List.mem_map.mp hp2
      exact ⟨w, hw, ut, hut, by rw [← hutp] at hpj; exact hpj⟩
  · intro ⟨w, hw, ut, hut, hj⟩
    right
    unfold norm_contribs keysOf
    apply List.mem_map.mpr
    refine ⟨(ut.1, ((ut.2 : ℝ) * lookupD idf_dict w.1 0) ^ 2), ?_, hj⟩
    apply List.mem_flatMap.mpr
    exact ⟨w, hw, List.mem_map.mpr ⟨ut, hut, rfl⟩⟩

theorem mem_keysOf_doc_scores {query : List (ℕ × ℕ)}
    {inv_idx : List (ℕ × List (ℕ × ℕ))} {idf_dict : List (ℕ × ℝ)} {j : ℕ}
    (h : j ∈ keysOf (doc_scores query inv_idx idf_dict)) :
    ∃ t, (∃ q, (t, q) ∈ query_tfidf query idf_dict) ∧
      ∃ ut ∈ lookupD inv_idx t [], ut.1 = j := by
  unfold doc_scores at h
  rw [mem_keysOf_addAll] at h
  rcases h with h | h
  · exact absurd h (by simp [keysOf])
  · unfold score_contribs keysOf at h
    obtain ⟨p, hp, hpj⟩ := List.mem_map.mp h
    obtain ⟨tq, htq, hp2⟩ := List.mem_flatMap.mp hp
    obtain ⟨ut, hut, hutp⟩ := List.mem_map.mp hp2
    exact ⟨tq.1, ⟨tq.2, htq⟩, ut, hut, by rw [← hutp] at hpj; exact hpj⟩

/-! ## C7 — IDF table membership and values -/

/-- **C7.** For every inverted index and document count, `compute_idf`'s
output contains a token iff its posting-list length `df` satisfies
`df >= min_df` and `df / n_docs <= max_df_ratio`, and the stored value of an
included token is `log2(n_docs / (1 + df))`; tokens failing either threshold
are entirely absent from the IDF table. -/
theorem C7_compute_idf_spec (inv_idx : List (ℕ × List (ℕ × ℕ)))
    (n_docs min_df : ℕ) (max_df_ratio : ℚ) (hkeys : (keysOf inv_idx).Nodup)
    (hn : 0 < n_docs) :
    (∀ t v, lookupKey t (compute_idf inv_idx n_docs min_df max_df_ratio) = some v ↔
      ∃ posting, lookupKey t inv_idx = some posting ∧
        min_df ≤ posting.length ∧
        (posting.length : ℚ) / (n_docs : ℚ) ≤ max_df_ratio ∧
        v = Real.logb 2 ((n_docs : ℝ) / (1 + (posting.length : ℝ)))) ∧
    (∀ t posting, (t, posting) ∈ inv_idx →
      ¬(min_df ≤ posting.length ∧
        (posting.length : ℚ) / (n_docs : ℚ) ≤ max_df_ratio) →
      t ∉ keysOf (compute_idf inv_idx n_docs min_df max_df_ratio)) := by
  have hpres : ∀ (p : ℕ × List (ℕ × ℕ)) (q : ℕ × ℝ),
      (if min_df ≤ p.2.length ∧ (p.2.length : ℚ) / (n_docs : ℚ) ≤ max_df_ratio then
        some (p.1, Real.logb 2 ((n_docs : ℝ) / (1 + (p.2.length : ℝ))))
      else none) = some q → q.1 = p.1 := by
    intro p q hq
    by_cases hc : min_df ≤ p.2.length ∧ (p.2.length : ℚ) / (n_docs : ℚ) ≤ max_df_ratio
    · rw [if_pos hc] at hq
      cases Option.some.inj hq
      rfl
    · rw [if_neg hc] at hq
      exact absurd hq (by simp)
  have hidfkeys : (keysOf (compute_idf inv_idx n_docs min_df max_df_ratio)).Nodup :=
    (keysOf_filterMap_sublist _ hpres inv_idx).nodup hkeys
  have hmem : ∀ t v,
      (t, v) ∈ compute_idf inv_idx n_docs min_df max_df_ratio ↔
      ∃ posting, (t, posting) ∈ inv_idx ∧ min_df ≤ posting.length ∧
        (posting.length : ℚ) / (n_docs : ℚ) ≤ max_df_ratio ∧
        v = Real.logb 2 ((n_docs : ℝ) / (1 + (posting.length : ℝ))) := by
    intro t v
    unfold compute_idf
    rw [List.mem_filterMap]
    constructor
    · intro ⟨wp, hwp, hf⟩
      by_cases hc : min_df ≤ wp.2.length ∧
          (wp.2.length : ℚ) / (n_docs : ℚ) ≤ max_df_ratio
      · rw [if_pos hc] at hf
        have hf' := Option.some.inj hf
        refine ⟨wp.2, ?_, hc.1, hc.2, ?_⟩
        · have : wp.1 = t := congrArg Prod.fst hf'
          rw [← this]
          exact hwp
        · exact (congrArg Prod.snd hf').symm
      · rw [if_neg hc] at hf
        exact absurd hf (by simp)
    · intro ⟨posting, hpostm, h1, h2, hv⟩
      refine ⟨(t, posting), hpostm, ?_⟩
      rw [if_pos ⟨h1, h2⟩, hv]
  constructor
  · intro t v
    constructor
    · intro h
      obtain ⟨posting, hpost, h1, h2, hv⟩ := (hmem t v).mp (lookupKey_mem h)
      exact ⟨posting, mem_lookupKey hkeys hpost, h1, h2, hv⟩
    · intro ⟨posting, hpost, h1, h2, hv⟩
      exact mem_lookupKey hidfkeys
        ((hmem t v).mpr ⟨posting, lookupKey_mem hpost, h1, h2, hv⟩)
  · intro t posting hpost hfail ht
    unfold keysOf at ht
    obtain ⟨q, hqmem, hq1⟩ := List.mem_map.mp ht
    obtain ⟨posting', hpost', h1, h2, _⟩ := (hmem q.1 q.2).mp hqmem
    have heq : posting' = posting := by
      have e1 := mem_lookupKey hkeys hpost
      have e2 := mem_lookupKey hkeys hpost'
      rw [hq1] at e2
      rw [e1] at e2
      exact (Option.some.inj e2).symm
    exact hfail ⟨heq ▸ h1, heq ▸ h2⟩

/-- Witness for C7 on a concrete index: with two documents, a token held by
one document passes the default thresholds and gets value `log2(2 / 2)`. -/
theorem C7_compute_idf_spec_witness :
    (keysOf [((10 : ℕ), [((0 : ℕ), (1 : ℕ))]), (11, [(1, 1)])]).Nodup ∧
    lookupKey 10 (compute_idf [(10, [(0, 1)]), (11, [(1, 1)])] 2 1 1) =
      some (Real.logb 2 ((2 : ℝ) / (1 + 1))) := by
  refine ⟨by decide, ?_⟩
  exact ((C7_compute_idf_spec [(10, [(0, 1)]), (11, [(1, 1)])] 2 1 1
      (by decide) (by decide)).1 10 _).mpr
    ⟨[(0, 1)], by simp [lookupKey], by simp, by norm_num, by norm_num⟩

/-! ## C10 — the norm lookup of `lyrics_sim` is total -/

/-- **C10.** When the song-norm table is built by `compute_song_norms` from
the same inverted index that `lyrics_sim` queries, `compute_song_norms`
inserts an entry for every `(song-id, tf)` pair of every posting list, every
song id accumulated into `doc_scores` has a norm entry, and hence the
normalization lookup never fails: `lyrics_sim` returns `some` map. -/
theorem C10_norm_lookup_total (query : List (ℕ × ℕ))
    (inv_idx : List (ℕ × List (ℕ × ℕ))) (idf_dict : List (ℕ × ℝ))
    (song_norms_dict : List (ℕ × ℝ))
    (hnorm : song_norms_dict = compute_song_norms inv_idx idf_dict) :
    (∀ w ∈ inv_idx, ∀ ut ∈ w.2, ut.1 ∈ keysOf song_norms_dict) ∧
    (∀ j ∈ keysOf (doc_scores query inv_idx idf_dict),
      j ∈ keysOf song_norms_dict) ∧
    (∃ m, lyrics_sim query inv_idx idf_dict song_norms_dict = some m) := by
  subst hnorm
  have hcover : ∀ w ∈ inv_idx, ∀ ut ∈ w.2,
      ut.1 ∈ keysOf (compute_song_norms inv_idx idf_dict) := by
    intro w hw ut hut
    exact mem_keysOf_compute_song_norms.mpr ⟨w, hw, ut, hut, rfl⟩
  have hdocs : ∀ j ∈ keysOf (doc_scores query inv_idx idf_dict),
      j ∈ keysOf (compute_song_norms inv_idx idf_dict) := by
    intro j hj
    obtain ⟨t, _, ut, hut, hutj⟩ := mem_keysOf_doc_scores hj
    cases hpost : lookupKey t inv_idx with
    | none =>
      rw [show lookupD inv_idx t [] = [] by unfold lookupD; rw [hpost]; rfl] at hut
      exact absurd hut (List.not_mem_nil ut)
    | some posting =>
      have hmem : (t, posting) ∈ inv_idx := lookupKey_mem hpost
      have hut' : ut ∈ posting := by
        rw [show lookupD inv_idx t [] = posting by
          unfold lookupD; rw [hpost]; rfl] at hut
        exact hut
      exact hutj ▸ hcover (t, posting) hmem ut hut'
  refine ⟨hcover, hdocs, ?_⟩
  apply optMap_eq_some_of_forall
  intro p hp
  have hpk : p.1 ∈ keysOf (doc_scores query inv_idx idf_dict) :=
    List.mem_map_of_mem Prod.fst hp
  have := hdocs p.1 hpk
  rw [← lookupKey_isSome_iff] at this
  obtain ⟨nd, hnd⟩ := Option.isSome_iff_exists.mp this
  simp [hnd]

/-- Witness for C10: a concrete index and query exercising the theorem. -/
theorem C10_norm_lookup_total_witness :
    ∃ m, lyrics_sim [((5 : ℕ), (2 : ℕ))] [(5, [(7, 1)])] [(5, 1)]
      (compute_song_norms [(5, [(7, 1)])] [(5, 1)]) = some m :=
  (C10_norm_lookup_total [(5, 2)] [(5, [(7, 1)])] [(5, 1)]
    (compute_song_norms [(5, [(7, 1)])] [(5, 1)]) rfl).2.2

/-! ## Ranking-stage helper lemmas -/

theorem keepCand_eq_true_iff (q : ℕ) (qa qn : String)
    (mF : String → String → Bool) (aOf tOf : ℕ → String) (p : ℕ × ℚ) :
    keepCand q qa qn mF aOf tOf p = true ↔
      ¬(p.1 = q ∨ mF (aOf p.1) qa = true ∨ mF (tOf p.1) qn = true) := by
  unfold keepCand
  simp only [Bool.and_eq_true, decide_eq_true_eq, Bool.not_eq_true',
    Bool.not_eq_true, not_or]
  constructor
  · intro ⟨⟨h1, h2⟩, h3⟩
    exact ⟨h1, by simp [h2], by simp [h3]⟩
  · intro ⟨h1, h2, h3⟩
    exact ⟨⟨h1, by simp [h2]⟩, by simp [h3]⟩

theorem fuse_lookup {af ls : List (ℕ × ℚ)} {w : ℚ} {m : List (ℕ × ℚ)}
    (h : fuseScores af ls w = some m) (k : ℕ) :
    lookupKey k m = (lookupKey k ls).bind (fun s =>
      (lookupKey k af).map (fun a => a * (1 - w) + s * w)) := by
  induction ls generalizing m with
  | nil =>
    simp [fuseScores, optMap] at h
    subst h
    simp [lookupKey]
  | cons p ps ih =>
    unfold fuseScores optMap at h
    cases hfa : (lookupKey p.1 af).map
        (fun a => (p.1, a * (1 - w) + p.2 * w)) with
    | none => rw [hfa] at h; exact absurd h (by simp)
    | some b =>
      rw [hfa] at h
      cases hrest : optMap (fun p =>
          (lookupKey p.1 af).map (fun a => (p.1, a * (1 - w) + p.2 * w))) ps with
      | none => rw [hrest] at h; exact absurd h (by simp)
      | some ms =>
        rw [hrest] at h
        simp at h
        subst h
        obtain ⟨a, ha, hab⟩ := Option.map_eq_some'.mp hfa
        subst hab
        by_cases hk : p.1 = k
        · subst hk
          simp [lookupKey, ha]
        · simp only [lookupKey, if_neg hk]
          exact ih hrest

theorem fuse_keys {af ls : List (ℕ × ℚ)} {w : ℚ} {m : List (ℕ × ℚ)}
    (h : fuseScores af ls w = some m) : keysOf m = keysOf ls := by
  induction ls generalizing m with
  | nil =>
    simp [fuseScores, optMap] at h
    subst h
    rfl
  | cons p ps ih =>
    unfold fuseScores optMap at h
    cases hfa : (lookupKey p.1 af).map
        (fun a => (p.1, a * (1 - w) + p.2 * w)) with
    | none => rw [hfa] at h; exact absurd h (by simp)
    | some b =>
      rw [hfa] at h
      cases hrest : optMap (fun p =>
          (lookupKey p.1 af).map (fun a => (p.1, a * (1 - w) + p.2 * w))) ps with
      | none => rw [hrest] at h; exact absurd h (by simp)
      | some ms =>
        rw [hrest] at h
        simp at h
        subst h
        obtain ⟨a, _, hab⟩ := Option.map_eq_some'.mp hfa
        subst hab
        unfold keysOf at *
        simp only [List.map_cons]
        rw [ih hrest]

/-! ## C5 — deterministic total ranking order -/

/-- **C5.** Candidates are ordered by descending fused score with ties
broken by ascending song id: `rankSort` produces a list sorted by `rankRel`,
a permutation of its input, and — since `rankRel` is an antisymmetric total
order on `(id, score)` pairs — the unique such permutation, so for fixed
score maps repeated calls produce an identical output sequence. -/
theorem C5_ranking_deterministic (scores : List (ℕ × ℚ)) :
    List.Sorted rankRel (rankSort scores) ∧
    (rankSort scores).Perm scores ∧
    (∀ l, l.Perm scores → List.Sorted rankRel l → l = rankSort scores) := by
  refine ⟨List.sorted_insertionSort rankRel scores,
    List.perm_insertionSort rankRel scores, ?_⟩
  intro l hp hs
  exact List.eq_of_perm_of_sorted
    (hp.trans (List.perm_insertionSort rankRel scores).symm) hs
    (List.sorted_insertionSort rankRel scores)

/-- Witness for C5 on a concrete tie: both candidates score `5`, and the
unique sorted order lists the smaller id first. -/
theorem C5_ranking_deterministic_witness :
    [((1 : ℕ), (5 : ℚ)), (2, 5)].Perm [((2 : ℕ), (5 : ℚ)), (1, 5)] ∧
    List.Sorted rankRel [((1 : ℕ), (5 : ℚ)), (2, 5)] ∧
    [((1 : ℕ), (5 : ℚ)), (2, 5)] = rankSort [((2 : ℕ), (5 : ℚ)), (1, 5)] := by
  have hperm : [((1 : ℕ), (5 : ℚ)), (2, 5)].Perm [((2 : ℕ), (5 : ℚ)), (1, 5)] :=
    List.Perm.swap _ _ _
  have hsorted : List.Sorted rankRel [((1 : ℕ), (5 : ℚ)), (2, 5)] := by
    simp [List.sorted_cons, rankRel]
  exact ⟨hperm, hsorted,
    (C5_ranking_deterministic [((2 : ℕ), (5 : ℚ)), (1, 5)]).2.2 _ hperm hsorted⟩

/-! ## C3 — truncation semantics -/

/-- **C3 (amended).** The output loop of `main` scans only the first
`min(n_results, #candidates)` ranked entries and filters within that
window: the output length equals the number of surviving candidates among
those first entries (so it is at most `n_results` and at most the total
number of survivors, but a filtered candidate ranked inside the top
`n_results` does consume a result slot). -/
theorem C3_truncation_amended (scores : List (ℕ × ℚ)) (query_uri : ℕ)
    (query_artist query_name : String) (matchF : String → String → Bool)
    (artistOf trackOf : ℕ → String) (n : ℕ) :
    (rankAndFilter scores query_uri query_artist query_name matchF artistOf
        trackOf n).length =
      (((rankSort scores).take n).filter
        (keepCand query_uri query_artist query_name matchF artistOf trackOf)).length ∧
    (rankAndFilter scores query_uri query_artist query_name matchF artistOf
        trackOf n).length ≤ n ∧
    (rankAndFilter scores query_uri query_artist query_name matchF artistOf
        trackOf n).length ≤
      ((rankSort scores).filter
        (keepCand query_uri query_artist query_name matchF artistOf trackOf)).length := by
  refine ⟨List.length_map _ _, ?_, ?_⟩
  · unfold rankAndFilter
    rw [List.length_map]
    exact le_trans (List.length_filter_le _ _)
      (by rw [List.length_take]; exact min_le_left _ _)
  · unfold rankAndFilter
    rw [List.length_map]
    exact ((List.take_sublist n (rankSort scores)).filter _).length_le

/-- **C3 (counterexample to the claim as stated).** With ranked candidates
`[(0, 3), (1, 2), (2, 1)]`, query id `0` and `n_results = 2`, the query song
occupies one of the two scanned slots: the output has length `1`, while
`min(n_results, number of surviving candidates) = min 2 2 = 2`. -/
theorem C3_counterexample :
    (rankAndFilter [((0 : ℕ), (3 : ℚ)), (1, 2), (2, 1)] 0 "a" "b"
        (fun _ _ => false) (fun _ => "x") (fun _ => "y") 2).length = 1 ∧
    min 2 ((rankSort [((0 : ℕ), (3 : ℚ)), (1, 2), (2, 1)]).filter
        (keepCand 0 "a" "b" (fun _ _ => false) (fun _ => "x")
          (fun _ => "y"))).length = 2 := by
  constructor
  · decide
  · decide

/-! ## C2 — the duplicate filter -/

/-- **C2 (amended).** During the output scan a candidate within the scanned
window survives iff it is not the query song's id AND its artist does not
fuzzy-match the query artist AND its title does not fuzzy-match the query
title — i.e. a candidate is removed iff it is the query song's own id OR its
artist matches OR its title matches (matching on artist alone or on title
alone already removes it).  In particular the query song itself never
appears in its own result list.  This holds for every matcher `matchF`. -/
theorem C2_filter_amended (scores : List (ℕ × ℚ)) (query_uri : ℕ)
    (query_artist query_name : String) (matchF : String → String → Bool)
    (artistOf trackOf : ℕ → String) (n : ℕ) :
    (∀ s u, (s, u) ∈ rankAndFilter scores query_uri query_artist query_name
        matchF artistOf trackOf n → u ≠ query_uri) ∧
    (∀ p ∈ (rankSort scores).take n,
      ((p.2, p.1) ∈ rankAndFilter scores query_uri query_artist query_name
          matchF artistOf trackOf n ↔
        ¬(p.1 = query_uri ∨ matchF (artistOf p.1) query_artist = true ∨
          matchF (trackOf p.1) query_name = true))) := by
  constructor
  · intro s u hmem
    obtain ⟨p, hp, hps⟩ := List.mem_map.mp hmem
    obtain ⟨_, hkeep⟩ := List.mem_filter.mp hp
    have := (keepCand_eq_true_iff query_uri query_artist query_name matchF
      artistOf trackOf p).mp hkeep
    rw [not_or] at this
    have hu : p.1 = u := congrArg Prod.snd hps
    exact hu ▸ this.1
  · intro p hp
    constructor
    · intro hmem
      obtain ⟨p', hp', hps⟩ := List.mem_map.mp hmem
      obtain ⟨_, hkeep⟩ := List.mem_filter.mp hp'
      have hpp : p' = p :=
        Prod.ext (congrArg Prod.snd hps) (congrArg Prod.fst hps)
      exact (keepCand_eq_true_iff query_uri query_artist query_name matchF
        artistOf trackOf p).mp (hpp ▸ hkeep)
    · intro hkeep
      apply List.mem_map.mpr
      refine ⟨p, List.mem_filter.mpr ⟨hp, ?_⟩, rfl⟩
      exact (keepCand_eq_true_iff query_uri query_artist query_name matchF
        artistOf trackOf p).mpr hkeep

/-- Witness for C2: a candidate matching neither the query id nor either
name survives the filter. -/
theorem C2_filter_amended_witness :
    ((1 : ℕ), (3 : ℚ)) ∈ (rankSort [((1 : ℕ), (3 : ℚ))]).take 1 ∧
    (((3 : ℚ), (1 : ℕ)) ∈ rankAndFilter [((1 : ℕ), (3 : ℚ))] 0 "a" "b"
        (fun _ _ => false) (fun _ => "x") (fun _ => "y") 1 ↔
      ¬((1 : ℕ) = 0 ∨ (fun _ _ => false : String → String → Bool) "x" "a" = true ∨
        (fun _ _ => false : String → String → Bool) "y" "b" = true)) :=
  ⟨by decide, (C2_filter_amended [((1 : ℕ), (3 : ℚ))] 0 "a" "b"
      (fun _ _ => false) (fun _ => "x") (fun _ => "y") 1).2
    ((1 : ℕ), (3 : ℚ)) (by decide)⟩

/-- **C2 (counterexample to the claim as stated).** Candidate `1` is not the
query song (`id 0`), its artist fuzzy-matches the query artist but its title
does not — the claim says it is kept, yet the code's conjunctive survival
condition (`not match(artist) and not match(title)`) removes it: the result
list is empty.  `fuzzyMatch` is the spec's described matcher. -/
theorem C2_counterexample :
    rankAndFilter [((1 : ℕ), (3 : ℚ))] 0 "adele" "other" fuzzyMatch
        (fun _ => "Adele") (fun _ => "Hello") 1 = [] ∧
    (1 : ℕ) ≠ 0 ∧
    fuzzyMatch "Adele" "adele" = true ∧
    fuzzyMatch "Hello" "other" = false := by
  refine ⟨?_, by decide, by decide, by decide⟩
  decide

/-! ## C9 — distinguished not-found outcomes -/

/-- **C9.** `main` fails with a distinguished not-found outcome, carrying no
ranking, at each resolution stage: when the artist/title query cannot be
resolved to a song, when the resolved song's audio features are missing, and
when `lyrics_weight ≠ 0` but no (non-empty) lyrics were retrieved — in the
last case it aborts entirely instead of falling back to audio-only ranking.
The three outcomes are pairwise distinct and distinct from every successful
ranking. -/
theorem C9_not_found_outcomes :
    (∀ query query_af lyrics w n af ls qa qn mF aOf tOf,
      mainModel false query none query_af lyrics w n af ls qa qn mF aOf tOf =
        MainOutcome.songNotFound) ∧
    (∀ is_uri query resolved lyrics w n af ls qa qn mF aOf tOf u,
      (if is_uri then some query else resolved) = some u →
      mainModel is_uri query resolved none lyrics w n af ls qa qn mF aOf tOf =
        MainOutcome.afNotFound) ∧
    (∀ is_uri query resolved d lyrics w n af ls qa qn mF aOf tOf u,
      (if is_uri then some query else resolved) = some u →
      w ≠ 0 → truthy lyrics = false →
      mainModel is_uri query resolved (some d) lyrics w n af ls qa qn mF aOf
        tOf = MainOutcome.lyricsNotFound) ∧
    ((∀ out, MainOutcome.songNotFound ≠ MainOutcome.ok out) ∧
      (∀ out, MainOutcome.afNotFound ≠ MainOutcome.ok out) ∧
      (∀ out, MainOutcome.lyricsNotFound ≠ MainOutcome.ok out) ∧
      MainOutcome.songNotFound ≠ MainOutcome.afNotFound ∧
      MainOutcome.songNotFound ≠ MainOutcome.lyricsNotFound ∧
      MainOutcome.afNotFound ≠ MainOutcome.lyricsNotFound) := by
  refine ⟨?_, ?_, ?_, ?_⟩
  · intro query query_af lyrics w n af ls qa qn mF aOf tOf
    rfl
  · intro is_uri query resolved lyrics w n af ls qa qn mF aOf tOf u h
    unfold mainModel
    rw [h]
  · intro is_uri query resolved d lyrics w n af ls qa qn mF aOf tOf u h hw ht
    unfold mainModel
    rw [h]
    simp [hw, ht]
  · exact ⟨fun _ h => MainOutcome.noConfusion h,
      fun _ h => MainOutcome.noConfusion h,
      fun _ h => MainOutcome.noConfusion h,
      fun h => MainOutcome.noConfusion h,
      fun h => MainOutcome.noConfusion h,
      fun h => MainOutcome.noConfusion h⟩

/-- Witness for C9: concrete failing environments for each stage. -/
theorem C9_not_found_outcomes_witness :
    mainModel false 0 none (some ("a", "b")) none (1 / 2) 5 [] [] "a" "b"
        (fun _ _ => false) (fun _ => "") (fun _ => "") =
      MainOutcome.songNotFound ∧
    mainModel true 7 none none none (1 / 2) 5 [] [] "a" "b"
        (fun _ _ => false) (fun _ => "") (fun _ => "") =
      MainOutcome.afNotFound ∧
    mainModel true 7 none (some ("a", "b")) (some []) (1 / 2) 5 [] [] "a" "b"
        (fun _ _ => false) (fun _ => "") (fun _ => "") =
      MainOutcome.lyricsNotFound :=
  ⟨C9_not_found_outcomes.1 0 (some ("a", "b")) none (1 / 2) 5 [] [] "a" "b"
      (fun _ _ => false) (fun _ => "") (fun _ => ""),
    C9_not_found_outcomes.2.1 true 7 none none (1 / 2) 5 [] [] "a" "b"
      (fun _ _ => false) (fun _ => "") (fun _ => "") 7 rfl,
    C9_not_found_outcomes.2.2.1 true 7 none ("a", "b") (some []) (1 / 2) 5
      [] [] "a" "b" (fun _ _ => false) (fun _ => "") (fun _ => "") 7 rfl
      (by norm_num) rfl⟩

/-! ## C4 — linear fusion -/

/-- **C4.** For every lyrics weight `w ∈ (0, 1]`, the fused score map has
exactly the song ids of the lyrical score map and fuses each as
`audio * (1 - w) + lyric * w`; at the endpoint `w = 1` the fused score of a
song present in both maps equals its lyrical score, and with `w = 0` `main`
ranks by the audio score map alone, never touching the lyrics or the lyrical
score map. -/
theorem C4_fusion_linear :
    (∀ (af_scores lyr_scores : List (ℕ × ℚ)) (w : ℚ), 0 < w → w ≤ 1 →
      (∀ k ∈ keysOf lyr_scores, k ∈ keysOf af_scores) →
      ∃ m, fuseScores af_scores lyr_scores w = some m ∧
        keysOf m = keysOf lyr_scores ∧
        (∀ k s a, lookupKey k lyr_scores = some s →
          lookupKey k af_scores = some a →
          lookupKey k m = some (a * (1 - w) + s * w))) ∧
    (∀ (af_scores lyr_scores m : List (ℕ × ℚ)),
      fuseScores af_scores lyr_scores 1 = some m →
      ∀ k s, lookupKey k lyr_scores = some s → lookupKey k m = some s) ∧
    (∀ is_uri query resolved d lyrics lyrics' n af ls ls' qa qn mF aOf tOf u,
      (if is_uri then some query else resolved) = some u →
      mainModel is_uri query resolved (some d) lyrics 0 n af ls qa qn mF aOf
          tOf =
        MainOutcome.ok (rankAndFilter af u qa qn mF aOf tOf n) ∧
      mainModel is_uri query resolved (some d) lyrics 0 n af ls qa qn mF aOf
          tOf =
        mainModel is_uri query resolved (some d) lyrics' 0 n af ls' qa qn mF
          aOf tOf) := by
  refine ⟨?_, ?_, ?_⟩
  · intro af_scores lyr_scores w _ _ hsub
    obtain ⟨m, hm⟩ := optMap_eq_some_of_forall
      (fun p => (lookupKey p.1 af_scores).map
        (fun a => (p.1, a * (1 - w) + p.2 * w))) lyr_scores
      (by
        intro p hp
        have := hsub p.1 (List.mem_map_of_mem Prod.fst hp)
        rw [← lookupKey_isSome_iff] at this
        obtain ⟨a, ha⟩ := Option.isSome_iff_exists.mp this
        simp [ha])
    refine ⟨m, hm, fuse_keys hm, ?_⟩
    intro k s a hs ha
    rw [fuse_lookup hm k, hs, ha]
    rfl
  · intro af_scores lyr_scores m hm k s hs
    rw [fuse_lookup hm k, hs]
    cases ha : lookupKey k af_scores with
    | none =>
      exfalso
      have hof := optMap_forall_mem hm (k, s) (lookupKey_mem hs)
      obtain ⟨b, _, hb⟩ := hof
      rw [ha] at hb
      exact absurd hb (by simp)
    | some a => simp
  · intro is_uri query resolved d lyrics lyrics' n af ls ls' qa qn mF aOf tOf
      u h
    constructor
    · unfold mainModel
      rw [h]
      rfl
    · unfold mainModel
      rw [h]
      rfl

/-- Witness for C4 on concrete maps: `w = 1/2` fuses `(4, 2)` into `3`,
`w = 1` returns the lyrical score, and `w = 0` ranks by audio alone. -/
theorem C4_fusion_linear_witness :
    (∃ m, fuseScores [((1 : ℕ), (4 : ℚ))] [((1 : ℕ), (2 : ℚ))] (1 / 2) =
        some m ∧
      keysOf m = keysOf [((1 : ℕ), (2 : ℚ))] ∧
      (∀ k s a, lookupKey k [((1 : ℕ), (2 : ℚ))] = some s →
        lookupKey k [((1 : ℕ), (4 : ℚ))] = some a →
        lookupKey k m = some (a * (1 - 1 / 2) + s * (1 / 2)))) ∧
    mainModel true 7 none (some ("a", "b")) none 0 5 [((1 : ℕ), (4 : ℚ))] []
        "a" "b" (fun _ _ => false) (fun _ => "") (fun _ => "") =
      MainOutcome.ok (rankAndFilter [((1 : ℕ), (4 : ℚ))] 7 "a" "b"
        (fun _ _ => false) (fun _ => "") (fun _ => "") 5) :=
  ⟨C4_fusion_linear.1 [((1 : ℕ), (4 : ℚ))] [((1 : ℕ), (2 : ℚ))] (1 / 2)
      (by norm_num) (by norm_num) (by decide),
    (C4_fusion_linear.2.2 true 7 none ("a", "b") none none 5
      [((1 : ℕ), (4 : ℚ))] [] [] "a" "b" (fun _ _ => false) (fun _ => "")
      (fun _ => "") 7 rfl).1⟩

/-! ## Analysis of the lyrical scorer -/

/-- Cauchy–Schwarz for lists of real pairs. -/
theorem list_cs (l : List (ℝ × ℝ)) :
    ((l.map (fun p => p.1 * p.2)).sum) ^ 2 ≤
      ((l.map (fun p => p.1 ^ 2)).sum) * ((l.map (fun p => p.2 ^ 2)).sum) := by
  induction l with
  | nil => simp
  | cons p l ih =>
    simp only [List.map_cons, List.sum_cons]
    set S := (l.map (fun p => p.1 * p.2)).sum with hS
    set A := (l.map (fun p => p.1 ^ 2)).sum with hA
    set B := (l.map (fun p => p.2 ^ 2)).sum with hB
    have hA0 : 0 ≤ A := List.sum_nonneg (by
      intro x hx
      obtain ⟨q, _, hq⟩ := List.mem_map.mp hx
      rw [← hq]; positivity)
    have hB0 : 0 ≤ B := List.sum_nonneg (by
      intro x hx
      obtain ⟨q, _, hq⟩ := List.mem_map.mp hx
      rw [← hq]; positivity)
    rcases eq_or_lt_of_le hB0 with hB' | hB'
    · have hS0 : S ^ 2 = 0 := by nlinarith [ih]
      have hS0' : S = 0 := sq_eq_zero_iff.mp hS0
      rw [hS0', ← hB']
      nlinarith [mul_nonneg hA0 (sq_nonneg p.2), sq_nonneg p.1, sq_nonneg p.2]
    · have key : 0 ≤ B * ((p.1 ^ 2 + A) * (p.2 ^ 2 + B) - (p.1 * p.2 + S) ^ 2) := by
        nlinarith [sq_nonneg (p.1 * B - p.2 * S),
          mul_nonneg (add_nonneg (sq_nonneg p.2) hB0) (sub_nonneg.mpr ih)]
      have := (mul_nonneg_iff_of_pos_left hB').mp key
      linarith

theorem sumKey_map_eq_zero {β : Type} (ps : List (ℕ × β)) (g : ℕ → β → ℝ)
    (j : ℕ) (h : j ∉ keysOf ps) :
    sumKey (ps.map (fun ut => (ut.1, g ut.1 ut.2))) j = 0 := by
  induction ps with
  | nil => rfl
  | cons ut ps ih =>
    simp only [keysOf, List.map_cons, List.mem_cons, not_or] at h
    simp only [List.map_cons, sumKey_cons]
    rw [if_neg (fun hp => h.1 hp.symm), ih (by unfold keysOf; exact h.2)]
    ring

theorem sumKey_map_lookup {β : Type} (ps : List (ℕ × β)) (g : ℕ → β → ℝ)
    (j : ℕ) (h : (keysOf ps).Nodup) :
    sumKey (ps.map (fun ut => (ut.1, g ut.1 ut.2))) j =
      ((lookupKey j ps).map (g j)).getD 0 := by
  induction ps with
  | nil => rfl
  | cons ut ps ih =>
    have h' := List.nodup_cons.mp h
    simp only [List.map_cons, sumKey_cons]
    by_cases hj : ut.1 = j
    · subst hj
      rw [if_pos rfl]
      rw [sumKey_map_eq_zero ps g ut.1 h'.1]
      simp [lookupKey]
    · rw [if_neg hj, ih h'.2]
      simp only [lookupKey, if_neg hj]
      ring

theorem sumKey_nonneg (ps : List (ℕ × ℝ)) (k : ℕ)
    (h : ∀ p ∈ ps, 0 ≤ p.2) : 0 ≤ sumKey ps k := by
  apply List.sum_nonneg
  intro x hx
  obtain ⟨p, hp, hpx⟩ := List.mem_map.mp hx
  rw [← hpx]
  by_cases hk : p.1 = k
  · rw [if_pos hk]; exact h p hp
  · rw [if_neg hk]

/-- The accumulated dot product of song `j` equals the sum over the
IDF-eligible query tokens of `song_tf * idf * query_tfidf`. -/
theorem doc_score_value (query : List (ℕ × ℕ))
    (inv_idx : List (ℕ × List (ℕ × ℕ))) (idf_dict : List (ℕ × ℝ)) (j : ℕ)
    (hpost : ∀ w ∈ inv_idx, (keysOf w.2).Nodup) :
    sumKey (score_contribs query inv_idx idf_dict) j =
      ((query_tfidf query idf_dict).map
        (fun tq => dtf inv_idx j tq.1 * lookupD idf_dict tq.1 0 * tq.2)).sum := by
  unfold score_contribs
  rw [sumKey_flatMap]
  congr 1
  apply List.map_congr_left
  intro tq _
  cases hpk : lookupKey tq.1 inv_idx with
  | none =>
    have hD : lookupD inv_idx tq.1 [] = [] := by
      unfold lookupD; rw [hpk]; rfl
    rw [hD]
    unfold dtf
    rw [hD]
    simp [sumKey, lookupKey]
  | some posting =>
    have hD : lookupD inv_idx tq.1 [] = posting := by
      unfold lookupD; rw [hpk]; rfl
    rw [hD]
    have hnd : (keysOf posting).Nodup := hpost (tq.1, posting) (lookupKey_mem hpk)
    rw [sumKey_map_lookup posting
      (fun _ tf => (tf : ℕ) * lookupD idf_dict tq.1 0 * tq.2) j hnd]
    unfold dtf
    rw [hD]
    cases lookupKey j posting <;> simp

/-- The accumulated squared-norm of song `j` equals the sum over all index
tokens of `(tf * idf)^2`. -/
theorem song_norm_sq_value (inv_idx : List (ℕ × List (ℕ × ℕ)))
    (idf_dict : List (ℕ × ℝ)) (j : ℕ) (hidx : (keysOf inv_idx).Nodup)
    (hpost : ∀ w ∈ inv_idx, (keysOf w.2).Nodup) :
    sumKey (norm_contribs inv_idx idf_dict) j =
      (inv_idx.map
        (fun w => (dtf inv_idx j w.1 * lookupD idf_dict w.1 0) ^ 2)).sum := by
  unfold norm_contribs
  rw [sumKey_flatMap]
  congr 1
  apply List.map_congr_left
  intro w hw
  have hpk : lookupKey w.1 inv_idx = some w.2 := mem_lookupKey hidx hw
  have hD : lookupD inv_idx w.1 [] = w.2 := by
    unfold lookupD; rw [hpk]; rfl
  rw [sumKey_map_lookup w.2
    (fun _ tf => ((tf : ℕ) * lookupD idf_dict w.1 0) ^ 2) j (hpost w hw)]
  unfold dtf
  rw [hD]
  cases lookupKey j w.2 <;> simp

theorem nodup_keysOf_query_tfidf {query : List (ℕ × ℕ)}
    {idf_dict : List (ℕ × ℝ)} (hq : (keysOf query).Nodup) :
    (keysOf (query_tfidf query idf_dict)).Nodup := by
  apply List.Sublist.nodup _ hq
  unfold query_tfidf
  apply keysOf_filterMap_sublist
  intro p q hpq
  obtain ⟨v, _, hv⟩ := Option.map_eq_some'.mp hpq
  rw [← hv]

/-- The per-song squared TF-IDF weights of the shared query tokens are
dominated by the song's accumulated squared norm. -/
theorem qt_sq_sum_le (query : List (ℕ × ℕ))
    (inv_idx : List (ℕ × List (ℕ × ℕ))) (idf_dict : List (ℕ × ℝ)) (j : ℕ)
    (hq : (keysOf query).Nodup) (hidx : (keysOf inv_idx).Nodup)
    (hpost : ∀ w ∈ inv_idx, (keysOf w.2).Nodup) :
    ((query_tfidf query idf_dict).map
      (fun tq => (dtf inv_idx j tq.1 * lookupD idf_dict tq.1 0) ^ 2)).sum ≤
      sumKey (norm_contribs inv_idx idf_dict) j := by
  rw [song_norm_sq_value inv_idx idf_dict j hidx hpost]
  have hqt : (keysOf (query_tfidf query idf_dict)).Nodup :=
    nodup_keysOf_query_tfidf hq
  set F : ℕ → ℝ :=
    fun t => (dtf inv_idx j t * lookupD idf_dict t 0) ^ 2 with hF
  have e1 : ((query_tfidf query idf_dict).map (fun tq => F tq.1)).sum =
      ∑ t ∈ (keysOf (query_tfidf query idf_dict)).toFinset, F t := by
    rw [List.sum_toFinset F hqt]
    unfold keysOf
    rw [List.map_map]
    rfl
  have e2 : (inv_idx.map (fun w => F w.1)).sum =
      ∑ t ∈ (keysOf inv_idx).toFinset, F t := by
    rw [List.sum_toFinset F hidx]
    unfold keysOf
    rw [List.map_map]
    rfl
  rw [e1, e2]
  have hvanish : ∀ t ∈ (keysOf (query_tfidf query idf_dict)).toFinset,
      t ∉ (keysOf (query_tfidf query idf_dict)).toFinset ∩
        (keysOf inv_idx).toFinset → F t = 0 := by
    intro t ht htn
    have htinv : t ∉ keysOf inv_idx := by
      intro hmem
      exact htn (Finset.mem_inter.mpr ⟨ht, List.mem_toFinset.mpr hmem⟩)
    have hnone : lookupKey t inv_idx = none := lookupKey_eq_none_iff.mpr htinv
    have hD : lookupD inv_idx t [] = [] := by
      unfold lookupD; rw [hnone]; rfl
    have hdtf : dtf inv_idx j t = 0 := by
      unfold dtf
      rw [hD]
      simp [lookupKey]
    simp only [hF, hdtf]
    ring
  calc ∑ t ∈ (keysOf (query_tfidf query idf_dict)).toFinset, F t
      = ∑ t ∈ (keysOf (query_tfidf query idf_dict)).toFinset ∩
          (keysOf inv_idx).toFinset, F t :=
        (Finset.sum_subset Finset.inter_subset_left hvanish).symm
    _ ≤ ∑ t ∈ (keysOf inv_idx).toFinset, F t :=
        Finset.sum_le_sum_of_subset_of_nonneg Finset.inter_subset_right
          (fun t _ _ => by rw [hF]; positivity)

/-- The accumulated dot product of a song is bounded in absolute value by
the product of the song's norm and the query norm. -/
theorem abs_doc_score_le (query : List (ℕ × ℕ))
    (inv_idx : List (ℕ × List (ℕ × ℕ))) (idf_dict : List (ℕ × ℝ)) (j : ℕ)
    (hq : (keysOf query).Nodup) (hidx : (keysOf inv_idx).Nodup)
    (hpost : ∀ w ∈ inv_idx, (keysOf w.2).Nodup) :
    |sumKey (score_contribs query inv_idx idf_dict) j| ≤
      Real.sqrt (sumKey (norm_contribs inv_idx idf_dict) j) *
        queryNorm query idf_dict := by
  set qt := query_tfidf query idf_dict with hqt
  have hdot := doc_score_value query inv_idx idf_dict j hpost
  have hcs := list_cs (qt.map (fun tq =>
    (dtf inv_idx j tq.1 * lookupD idf_dict tq.1 0, tq.2)))
  rw [List.map_map, List.map_map, List.map_map] at hcs
  have hcs' : (sumKey (score_contribs query inv_idx idf_dict) j) ^ 2 ≤
      ((qt.map (fun tq =>
        (dtf inv_idx j tq.1 * lookupD idf_dict tq.1 0) ^ 2)).sum) *
      ((qt.map (fun tq => tq.2 ^ 2)).sum) := by
    rw [hdot]
    exact hcs
  have hA : ((qt.map (fun tq =>
      (dtf inv_idx j tq.1 * lookupD idf_dict tq.1 0) ^ 2)).sum) ≤
      sumKey (norm_contribs inv_idx idf_dict) j :=
    qt_sq_sum_le query inv_idx idf_dict j hq hidx hpost
  have hB0 : 0 ≤ (qt.map (fun tq => tq.2 ^ 2)).sum := by
    apply List.sum_nonneg
    intro x hx
    obtain ⟨q, _, hq'⟩ := List.mem_map.mp hx
    rw [← hq']
    positivity
  have hbound : (sumKey (score_contribs query inv_idx idf_dict) j) ^ 2 ≤
      sumKey (norm_contribs inv_idx idf_dict) j *
        ((qt.map (fun tq => tq.2 ^ 2)).sum) :=
    le_trans hcs' (mul_le_mul_of_nonneg_right hA hB0)
  have habs : |sumKey (score_contribs query inv_idx idf_dict) j| =
      Real.sqrt ((sumKey (score_contribs query inv_idx idf_dict) j) ^ 2) :=
    (Real.sqrt_sq_eq_abs _).symm
  rw [habs]
  unfold queryNorm
  rw [← Real.sqrt_mul (sumKey_nonneg _ _ (by
    intro p hp
    unfold norm_contribs at hp
    obtain ⟨w, _, hw⟩ := List.mem_flatMap.mp hp
    obtain ⟨ut, _, hut⟩ := List.mem_map.mp hw
    rw [← hut]
    positivity))]
  exact Real.sqrt_le_sqrt (by rw [← hqt]; exact hbound)

theorem optMap_assoc_lookup {β γ δ : Type} (look : ℕ → Option δ)
    (g : ℕ → β → δ → γ) {ds : List (ℕ × β)} {m : List (ℕ × γ)}
    (hm : optMap (fun p => (look p.1).map (fun d => (p.1, g p.1 p.2 d))) ds =
      some m) (j : ℕ) :
    lookupKey j m = (lookupKey j ds).bind
      (fun s => (look j).map (fun d => g j s d)) := by
  induction ds generalizing m with
  | nil =>
    simp [optMap] at hm
    subst hm
    simp [lookupKey]
  | cons p ps ih =>
    unfold optMap at hm
    cases hfa : (look p.1).map (fun d => (p.1, g p.1 p.2 d)) with
    | none => rw [hfa] at hm; exact absurd hm (by simp)
    | some b =>
      rw [hfa] at hm
      cases hrest : optMap
          (fun p => (look p.1).map (fun d => (p.1, g p.1 p.2 d))) ps with
      | none => rw [hrest] at hm; exact absurd hm (by simp)
      | some ms =>
        rw [hrest] at hm
        simp at hm
        subst hm
        obtain ⟨d, hd, hb⟩ := Option.map_eq_some'.mp hfa
        subst hb
        by_cases hk : p.1 = j
        · subst hk
          simp [lookupKey, hd]
        · simp only [lookupKey, if_neg hk]
          exact ih hrest

theorem optMap_assoc_keys {β γ δ : Type} (look : ℕ → Option δ)
    (g : ℕ → β → δ → γ) {ds : List (ℕ × β)} {m : List (ℕ × γ)}
    (hm : optMap (fun p => (look p.1).map (fun d => (p.1, g p.1 p.2 d))) ds =
      some m) : keysOf m = keysOf ds := by
  induction ds generalizing m with
  | nil =>
    simp [optMap] at hm
    subst hm
    rfl
  | cons p ps ih =>
    unfold optMap at hm
    cases hfa : (look p.1).map (fun d => (p.1, g p.1 p.2 d)) with
    | none => rw [hfa] at hm; exact absurd hm (by simp)
    | some b =>
      rw [hfa] at hm
      cases hrest : optMap
          (fun p => (look p.1).map (fun d => (p.1, g p.1 p.2 d))) ps with
      | none => rw [hrest] at hm; exact absurd hm (by simp)
      | some ms =>
        rw [hrest] at hm
        simp at hm
        subst hm
        obtain ⟨d, _, hb⟩ := Option.map_eq_some'.mp hfa
        subst hb
        unfold keysOf at *
        simp only [List.map_cons]
        rw [ih hrest]

/-- The per-key content of a `lyrics_sim` result map. -/
theorem lyrics_sim_lookup {query : List (ℕ × ℕ)}
    {inv_idx : List (ℕ × List (ℕ × ℕ))} {idf_dict : List (ℕ × ℝ)}
    {song_norms_dict : List (ℕ × ℝ)} {m : List (ℕ × Option ℝ)}
    (hm : lyrics_sim query inv_idx idf_dict song_norms_dict = some m) (j : ℕ) :
    lookupKey j m = (lookupKey j (doc_scores query inv_idx idf_dict)).bind
      (fun s => (lookupKey j song_norms_dict).map
        (fun nd => divF s (nd * queryNorm query idf_dict))) := by
  unfold lyrics_sim at hm
  exact optMap_assoc_lookup (fun k => lookupKey k song_norms_dict)
    (fun _ s nd => divF s (nd * queryNorm query idf_dict)) hm j

theorem lyrics_sim_keys {query : List (ℕ × ℕ)}
    {inv_idx : List (ℕ × List (ℕ × ℕ))} {idf_dict : List (ℕ × ℝ)}
    {song_norms_dict : List (ℕ × ℝ)} {m : List (ℕ × Option ℝ)}
    (hm : lyrics_sim query inv_idx idf_dict song_norms_dict = some m) :
    keysOf m = keysOf (doc_scores query inv_idx idf_dict) := by
  unfold lyrics_sim at hm
  exact optMap_assoc_keys (fun k => lookupKey k song_norms_dict)
    (fun _ s nd => divF s (nd * queryNorm query idf_dict)) hm

theorem nodup_keysOf_doc_scores (query : List (ℕ × ℕ))
    (inv_idx : List (ℕ × List (ℕ × ℕ))) (idf_dict : List (ℕ × ℝ)) :
    (keysOf (doc_scores query inv_idx idf_dict)).Nodup :=
  nodup_keysOf_addAll [] _ (by simp [keysOf])

/-- The accumulated `doc_scores` dict realizes the sparse sums. -/
theorem doc_scores_lookup (query : List (ℕ × ℕ))
    (inv_idx : List (ℕ × List (ℕ × ℕ))) (idf_dict : List (ℕ × ℝ)) (j : ℕ) :
    lookupKey j (doc_scores query inv_idx idf_dict) =
      if j ∈ keysOf (score_contribs query inv_idx idf_dict) then
        some (sumKey (score_contribs query inv_idx idf_dict) j)
      else none := by
  unfold doc_scores
  by_cases h : j ∈ keysOf (score_contribs query inv_idx idf_dict)
  · rw [if_pos h]
    exact lookupKey_addAll_nil _ _ h
  · rw [if_neg h]
    exact lookupKey_addAll_nil_none _ _ h

/-- The song-norm dict realizes `sqrt` of the accumulated squared norms. -/
theorem compute_song_norms_lookup (inv_idx : List (ℕ × List (ℕ × ℕ)))
    (idf_dict : List (ℕ × ℝ)) (j : ℕ) :
    lookupKey j (compute_song_norms inv_idx idf_dict) =
      if j ∈ keysOf (norm_contribs inv_idx idf_dict) then
        some (Real.sqrt (sumKey (norm_contribs inv_idx idf_dict) j))
      else none := by
  unfold compute_song_norms
  rw [lookupKey_map_snd]
  unfold compute_song_norms_sq
  by_cases h : j ∈ keysOf (norm_contribs inv_idx idf_dict)
  · rw [if_pos h, lookupKey_addAll_nil _ _ h]
    rfl
  · rw [if_neg h, lookupKey_addAll_nil_none _ _ h]
    rfl

/-- Every value of a float division with nonnegative denominator bounded
below by the numerator's magnitude lies in `[-1, 1]`. -/
theorem divF_bound {s den : ℝ} (hden : 0 ≤ den) (habs : |s| ≤ den) :
    ∀ r, divF s den = some r → -1 ≤ r ∧ r ≤ 1 := by
  intro r hr
  unfold divF at hr
  by_cases h0 : den = 0
  · rw [if_pos h0] at hr
    cases hr
  · rw [if_neg h0] at hr
    have hpos : 0 < den := lt_of_le_of_ne hden (Ne.symm h0)
    have hrs : s / den = r := Option.some.inj hr
    rw [← hrs]
    have : |s / den| ≤ 1 := by
      rw [abs_div, abs_of_pos hpos]
      exact (div_le_one hpos).mpr habs
    exact abs_le.mp this

theorem zipWith_mul_eq_map_zip (xs ys : List ℝ) :
    List.zipWith (fun a b => a * b) xs ys =
      (xs.zip ys).map (fun p => p.1 * p.2) := by
  induction xs generalizing ys with
  | nil => simp
  | cons x xs ih =>
    cases ys with
    | nil => simp
    | cons y ys => simp [List.zip_cons_cons, ih]

theorem zip_fst_sq_sum_le (xs ys : List ℝ) :
    (((xs.zip ys).map (fun p => p.1 ^ 2)).sum) ≤ normSq xs := by
  induction xs generalizing ys with
  | nil => simp [normSq]
  | cons x xs ih =>
    cases ys with
    | nil =>
      simp only [List.zip_nil_right, List.map_nil, List.sum_nil]
      unfold normSq
      apply List.sum_nonneg
      intro a ha
      obtain ⟨q, _, hq⟩ := List.mem_map.mp ha
      rw [← hq]
      positivity
    | cons y ys =>
      simp only [List.zip_cons_cons, List.map_cons, List.sum_cons, normSq]
      exact add_le_add_left (ih ys) _

theorem zip_snd_sq_sum_le (xs ys : List ℝ) :
    (((xs.zip ys).map (fun p => p.2 ^ 2)).sum) ≤ normSq ys := by
  induction xs generalizing ys with
  | nil =>
    simp only [List.zip_nil_left, List.map_nil, List.sum_nil]
    unfold normSq
    apply List.sum_nonneg
    intro a ha
    obtain ⟨q, _, hq⟩ := List.mem_map.mp ha
    rw [← hq]
    positivity
  | cons x xs ih =>
    cases ys with
    | nil =>
      simp [normSq]
    | cons y ys =>
      simp only [List.zip_cons_cons, List.map_cons, List.sum_cons, normSq]
      exact add_le_add_left (ih ys) _

/-- Cauchy–Schwarz for `rowDot`. -/
theorem abs_rowDot_le (xs ys : List ℝ) :
    |rowDot xs ys| ≤ vecNorm xs * vecNorm ys := by
  have hcs := list_cs (xs.zip ys)
  have h1 := zip_fst_sq_sum_le xs ys
  have h2 := zip_snd_sq_sum_le xs ys
  have h2n : 0 ≤ ((xs.zip ys).map (fun p => p.2 ^ 2)).sum := by
    apply List.sum_nonneg
    intro a ha
    obtain ⟨q, _, hq⟩ := List.mem_map.mp ha
    rw [← hq]
    positivity
  have h1n : 0 ≤ normSq xs := by
    unfold normSq
    apply List.sum_nonneg
    intro a ha
    obtain ⟨q, _, hq⟩ := List.mem_map.mp ha
    rw [← hq]
    positivity
  have hbound : (rowDot xs ys) ^ 2 ≤ normSq xs * normSq ys := by
    unfold rowDot
    rw [zipWith_mul_eq_map_zip]
    calc (((xs.zip ys).map (fun p => p.1 * p.2)).sum) ^ 2 ≤
        (((xs.zip ys).map (fun p => p.1 ^ 2)).sum) *
          (((xs.zip ys).map (fun p => p.2 ^ 2)).sum) := hcs
      _ ≤ normSq xs * normSq ys := by
          apply le_trans (mul_le_mul_of_nonneg_right h1 h2n)
          exact mul_le_mul_of_nonneg_left h2 h1n
  have habs : |rowDot xs ys| = Real.sqrt ((rowDot xs ys) ^ 2) :=
    (Real.sqrt_sq_eq_abs _).symm
  rw [habs]
  unfold vecNorm
  rw [← Real.sqrt_mul h1n]
  exact Real.sqrt_le_sqrt hbound

theorem mem_keysOf_iff_exists {β : Type} {d : List (ℕ × β)} {k : ℕ} :
    k ∈ keysOf d ↔ ∃ v, (k, v) ∈ d := by
  unfold keysOf
  constructor
  · intro h
    obtain ⟨p, hp, hpk⟩ := List.mem_map.mp h
    subst hpk
    exact ⟨p.2, hp⟩
  · intro ⟨v, hv⟩
    exact List.mem_map.mpr ⟨(k, v), hv, rfl⟩

theorem mem_keysOf_query_tfidf {query : List (ℕ × ℕ)}
    {idf_dict : List (ℕ × ℝ)} {t : ℕ} :
    t ∈ keysOf (query_tfidf query idf_dict) ↔
      t ∈ keysOf query ∧ t ∈ keysOf idf_dict := by
  constructor
  · intro h
    obtain ⟨q, hq⟩ := mem_keysOf_iff_exists.mp h
    unfold query_tfidf at hq
    obtain ⟨tc, htc, hf⟩ := List.mem_filterMap.mp hq
    obtain ⟨v, hv, hpair⟩ := Option.map_eq_some'.mp hf
    have ht : tc.1 = t := congrArg Prod.fst hpair
    constructor
    · exact mem_keysOf_iff_exists.mpr ⟨tc.2, by rw [← ht]; exact htc⟩
    · rw [← ht]
      rw [← lookupKey_isSome_iff, hv]
      rfl
  · intro ⟨hq, hidf⟩
    obtain ⟨c, hc⟩ := mem_keysOf_iff_exists.mp hq
    rw [← lookupKey_isSome_iff] at hidf
    obtain ⟨v, hv⟩ := Option.isSome_iff_exists.mp hidf
    apply mem_keysOf_iff_exists.mpr
    refine ⟨(c : ℕ) * v, ?_⟩
    unfold query_tfidf
    exact List.mem_filterMap.mpr ⟨(t, c), hc, by rw [hv]; rfl⟩

theorem mem_keysOf_score_contribs {query : List (ℕ × ℕ)}
    {inv_idx : List (ℕ × List (ℕ × ℕ))} {idf_dict : List (ℕ × ℝ)} {j : ℕ} :
    j ∈ keysOf (score_contribs query inv_idx idf_dict) ↔
      ∃ t ∈ keysOf (query_tfidf query idf_dict),
        ∃ tf, (j, tf) ∈ lookupD inv_idx t [] := by
  constructor
  · intro h
    obtain ⟨x, hx⟩ := mem_keysOf_iff_exists.mp h
    unfold score_contribs at hx
    obtain ⟨tq, htq, hx2⟩ := List.mem_flatMap.mp hx
    obtain ⟨ut, hut, hutx⟩ := List.mem_map.mp hx2
    have hj : ut.1 = j := congrArg Prod.fst hutx
    exact ⟨tq.1, List.mem_map.mpr ⟨tq, htq, rfl⟩, ut.2, by rw [← hj]; exact hut⟩
  · intro ⟨t, ht, tf, htf⟩
    obtain ⟨q, hq⟩ := mem_keysOf_iff_exists.mp ht
    apply mem_keysOf_iff_exists.mpr
    refine ⟨(tf : ℕ) * lookupD idf_dict t 0 * q, ?_⟩
    unfold score_contribs
    apply List.mem_flatMap.mpr
    exact ⟨(t, q), hq, List.mem_map.mpr ⟨(j, tf), htf, rfl⟩⟩

/-- The sparse sum over eligible query tokens equals the sum over all query
tokens of `song_tf * idf * (count * idf)` (ineligible tokens contribute `0`
through the absent IDF default). -/
theorem qt_dot_sum_eq (query : List (ℕ × ℕ))
    (inv_idx : List (ℕ × List (ℕ × ℕ))) (idf_dict : List (ℕ × ℝ)) (j : ℕ) :
    ((query_tfidf query idf_dict).map
      (fun tq => dtf inv_idx j tq.1 * lookupD idf_dict tq.1 0 * tq.2)).sum =
      (query.map (fun tc => dtf inv_idx j tc.1 * lookupD idf_dict tc.1 0 *
        ((tc.2 : ℕ) * lookupD idf_dict tc.1 0))).sum := by
  induction query with
  | nil => rfl
  | cons tc rest ih =>
    unfold query_tfidf
    rw [List.filterMap_cons]
    cases hv : lookupKey tc.1 idf_dict with
    | none =>
      have h0 : lookupD idf_dict tc.1 0 = 0 := by
        unfold lookupD; rw [hv]; rfl
      simp only [Option.map_none', List.map_cons, List.sum_cons]
      unfold query_tfidf at ih
      rw [ih, h0]
      ring
    | some v =>
      have h0 : lookupD idf_dict tc.1 0 = v := by
        unfold lookupD; rw [hv]; rfl
      simp only [Option.map_some', List.map_cons, List.sum_cons]
      unfold query_tfidf at ih
      rw [ih, h0]

/-- Same conversion for the squared query weights. -/
theorem qt_sq_sum_eq (query : List (ℕ × ℕ)) (idf_dict : List (ℕ × ℝ)) :
    ((query_tfidf query idf_dict).map (fun tq => tq.2 ^ 2)).sum =
      (query.map (fun tc => ((tc.2 : ℕ) * lookupD idf_dict tc.1 0) ^ 2)).sum := by
  induction query with
  | nil => rfl
  | cons tc rest ih =>
    unfold query_tfidf
    rw [List.filterMap_cons]
    cases hv : lookupKey tc.1 idf_dict with
    | none =>
      have h0 : lookupD idf_dict tc.1 0 = 0 := by
        unfold lookupD; rw [hv]; rfl
      simp only [Option.map_none', List.map_cons, List.sum_cons]
      unfold query_tfidf at ih
      rw [ih, h0]
      ring
    | some v =>
      have h0 : lookupD idf_dict tc.1 0 = v := by
        unfold lookupD; rw [hv]; rfl
      simp only [Option.map_some', List.map_cons, List.sum_cons]
      unfold query_tfidf at ih
      rw [ih, h0]

/-- Every song id accumulated into `doc_scores` has an entry in a norm table
built from the same inverted index. -/
theorem norms_cover_doc_scores (query : List (ℕ × ℕ))
    (inv_idx : List (ℕ × List (ℕ × ℕ))) (idf_dict : List (ℕ × ℝ)) :
    ∀ j ∈ keysOf (doc_scores query inv_idx idf_dict),
      j ∈ keysOf (compute_song_norms inv_idx idf_dict) := by
  intro j hj
  obtain ⟨t, _, ut, hut, hutj⟩ := mem_keysOf_doc_scores hj
  cases hpost : lookupKey t inv_idx with
  | none =>
    rw [show lookupD inv_idx t [] = [] by
      unfold lookupD; rw [hpost]; rfl] at hut
    exact absurd hut (List.not_mem_nil ut)
  | some posting =>
    have hmem : (t, posting) ∈ inv_idx := lookupKey_mem hpost
    have hut' : ut ∈ posting := by
      rw [show lookupD inv_idx t [] = posting by
        unfold lookupD; rw [hpost]; rfl] at hut
      exact hut
    exact hutj ▸ mem_keysOf_compute_song_norms.mpr ⟨(t, posting), hmem, ut, hut', rfl⟩

/-- With a norm table built from the same index, `lyrics_sim` always
succeeds. -/
theorem lyrics_sim_total (query : List (ℕ × ℕ))
    (inv_idx : List (ℕ × List (ℕ × ℕ))) (idf_dict : List (ℕ × ℝ)) :
    ∃ m, lyrics_sim query inv_idx idf_dict
      (compute_song_norms inv_idx idf_dict) = some m := by
  apply optMap_eq_some_of_forall
  intro p hp
  have hpk : p.1 ∈ keysOf (doc_scores query inv_idx idf_dict) :=
    List.mem_map_of_mem Prod.fst hp
  have := norms_cover_doc_scores query inv_idx idf_dict p.1 hpk
  rw [← lookupKey_isSome_iff] at this
  obtain ⟨nd, hnd⟩ := Option.isSome_iff_exists.mp this
  simp [hnd]

/-- The `[-1, 1]` bound for every defined entry of a `lyrics_sim` result
(with coherent norms), and the NaN outcome on a zero denominator. -/
theorem lyrics_sim_bounds {query : List (ℕ × ℕ)}
    {inv_idx : List (ℕ × List (ℕ × ℕ))} {idf_dict : List (ℕ × ℝ)}
    {song_norms_dict : List (ℕ × ℝ)} {m : List (ℕ × Option ℝ)}
    (hq : (keysOf query).Nodup) (hidx : (keysOf inv_idx).Nodup)
    (hpost : ∀ w ∈ inv_idx, (keysOf w.2).Nodup)
    (hnorm : song_norms_dict = compute_song_norms inv_idx idf_dict)
    (hm : lyrics_sim query inv_idx idf_dict song_norms_dict = some m) :
    ∀ j v, (j, v) ∈ m →
      (∀ r, v = some r → -1 ≤ r ∧ r ≤ 1) ∧
      (∀ ns, lookupKey j song_norms_dict = some ns →
        ns * queryNorm query idf_dict = 0 → v = none) := by
  intro j v hjv
  have hkeys : (keysOf m).Nodup := by
    rw [lyrics_sim_keys hm]
    exact nodup_keysOf_doc_scores query inv_idx idf_dict
  have hlook : lookupKey j m = some v := mem_lookupKey hkeys hjv
  rw [lyrics_sim_lookup hm j] at hlook
  cases hds : lookupKey j (doc_scores query inv_idx idf_dict) with
  | none => rw [hds] at hlook; exact absurd hlook (by simp)
  | some s =>
    rw [hds] at hlook
    simp only [Option.some_bind] at hlook
    obtain ⟨nd, hnd, hv⟩ := Option.map_eq_some'.mp hlook
    have hsval : s = sumKey (score_contribs query inv_idx idf_dict) j := by
      rw [doc_scores_lookup] at hds
      by_cases hmem : j ∈ keysOf (score_contribs query inv_idx idf_dict)
      · rw [if_pos hmem] at hds
        exact (Option.some.inj hds).symm
      · rw [if_neg hmem] at hds
        cases hds
    have hndval : nd = Real.sqrt (sumKey (norm_contribs inv_idx idf_dict) j) := by
      rw [hnorm, compute_song_norms_lookup] at hnd
      by_cases hmem : j ∈ keysOf (norm_contribs inv_idx idf_dict)
      · rw [if_pos hmem] at hnd
        exact (Option.some.inj hnd).symm
      · rw [if_neg hmem] at hnd
        cases hnd
    constructor
    · intro r hr
      have hden0 : 0 ≤ nd * queryNorm query idf_dict := by
        rw [hndval]
        unfold queryNorm
        positivity
      have habs : |s| ≤ nd * queryNorm query idf_dict := by
        rw [hsval, hndval]
        exact abs_doc_score_le query inv_idx idf_dict j hq hidx hpost
      exact divF_bound hden0 habs r (by rw [← hv] at hr; exact hr)
    · intro ns hns h0
      have : ns = nd := by
        rw [hnorm] at hnd
        rw [hnorm] at hns
        rw [hns] at hnd
        exact Option.some.inj hnd
      rw [← hv]
      unfold divF
      rw [if_pos (this ▸ h0)]

theorem af_norms_getD (m : List (List ℝ)) (i : ℕ) (h : i < m.length) :
    (af_norms m).getD i 0 = vecNorm (m.getD i []) := by
  unfold af_norms
  rw [List.getD_eq_getElem?_getD, List.getElem?_map, List.getD_eq_getElem?_getD]
  cases hx : m[i]? with
  | none =>
    exact absurd (List.getElem?_eq_none_iff.mp hx) (by omega)
  | some row => rfl

/-- The `[-1, 1]` bound for every defined entry of an `af_sim` result with
coherent row norms. -/
theorem af_sim_bounds (query_af : List ℝ) (af_matrix : List (List ℝ))
    (ix_to_uri : ℕ → ℕ) (scaler : List ℝ → List ℝ) :
    ∀ j v, (j, v) ∈ af_sim query_af af_matrix (af_norms af_matrix) ix_to_uri
        scaler →
      ∀ r, v = some r → -1 ≤ r ∧ r ≤ 1 := by
  intro j v hmem r hr
  unfold af_sim at hmem
  obtain ⟨i, hi, hiv⟩ := List.mem_map.mp hmem
  have hilen : i < af_matrix.length := List.mem_range.mp hi
  have hv : divF (rowDot (af_matrix.getD i []) (scaler query_af))
      (vecNorm (scaler query_af) * (af_norms af_matrix).getD i 0) = v :=
    congrArg Prod.snd hiv
  rw [af_norms_getD af_matrix i hilen] at hv
  have hden : 0 ≤ vecNorm (scaler query_af) * vecNorm (af_matrix.getD i []) := by
    unfold vecNorm
    positivity
  have habs : |rowDot (af_matrix.getD i []) (scaler query_af)| ≤
      vecNorm (scaler query_af) * vecNorm (af_matrix.getD i []) := by
    rw [mul_comm]
    exact abs_rowDot_le _ _
  apply divF_bound hden habs r
  rw [hv]
  exact hr

/-! ## C1 — similarity values and the missing zero-norm guard -/

/-- **C1 (amended).** For score maps produced with coherent norm tables
(song norms from `compute_song_norms` on the same index; audio norms the row
norms of the matrix), every *defined* similarity value lies in `[-1, 1]`.
But there is no zero-norm guard: whenever a song's norm times the query norm
is zero, the entry is the NaN of a float `0/0` (modelled `none`), not `0` —
`divF` returns `none` exactly on a zero denominator. -/
theorem C1_similarity_bounds_amended :
    (∀ (query : List (ℕ × ℕ)) (inv_idx : List (ℕ × List (ℕ × ℕ)))
      (idf_dict song_norms_dict : List (ℕ × ℝ)) (m : List (ℕ × Option ℝ)),
      (keysOf query).Nodup → (keysOf inv_idx).Nodup →
      (∀ w ∈ inv_idx, (keysOf w.2).Nodup) →
      song_norms_dict = compute_song_norms inv_idx idf_dict →
      lyrics_sim query inv_idx idf_dict song_norms_dict = some m →
      ∀ j v, (j, v) ∈ m →
        (∀ r, v = some r → -1 ≤ r ∧ r ≤ 1) ∧
        (∀ ns, lookupKey j song_norms_dict = some ns →
          ns * queryNorm query idf_dict = 0 → v = none)) ∧
    (∀ (query_af : List ℝ) (af_matrix : List (List ℝ)) (ix_to_uri : ℕ → ℕ)
      (scaler : List ℝ → List ℝ) (j : ℕ) (v : Option ℝ),
      (j, v) ∈ af_sim query_af af_matrix (af_norms af_matrix) ix_to_uri
        scaler →
      ∀ r, v = some r → -1 ≤ r ∧ r ≤ 1) ∧
    (∀ x d : ℝ, (d = 0 → divF x d = none) ∧
      (d ≠ 0 → divF x d = some (x / d))) := by
  refine ⟨?_, af_sim_bounds, ?_⟩
  · intro query inv_idx idf_dict song_norms_dict m hq hidx hpost hnorm hm
    exact lyrics_sim_bounds hq hidx hpost hnorm hm
  · intro x d
    constructor
    · intro h
      unfold divF
      rw [if_pos h]
    · intro h
      unfold divF
      rw [if_neg h]

/-- Witness for C1 on a concrete corpus with nonzero norms. -/
theorem C1_similarity_bounds_amended_witness :
    ∃ m, lyrics_sim [((5 : ℕ), (1 : ℕ))] [(5, [(7, 2)])] [(5, (1 : ℝ))]
        (compute_song_norms [(5, [(7, 2)])] [(5, 1)]) = some m ∧
      ∀ j v, (j, v) ∈ m → ∀ r, v = some r → -1 ≤ r ∧ r ≤ 1 := by
  obtain ⟨m, hm⟩ := lyrics_sim_total [(5, 1)] [(5, [(7, 2)])] [(5, 1)]
  refine ⟨m, hm, ?_⟩
  intro j v hjv r hr
  exact (C1_similarity_bounds_amended.1 [(5, 1)] [(5, [(7, 2)])] [(5, 1)]
    (compute_song_norms [(5, [(7, 2)])] [(5, 1)]) m (by decide) (by decide)
    (by decide) rfl hm j v hjv).1 r hr

/-- **C1 (counterexample to the claim as stated).** A query sharing one
token of IDF weight `0` with the corpus: the query norm and the song norm
are both `0`, `doc_scores` still holds an entry for the song, and the final
normalization computes the float `0 / 0` — NaN (`none`), not the claimed
`0`. -/
theorem C1_counterexample :
    lyrics_sim [((5 : ℕ), (1 : ℕ))] [(5, [(7, 2)])] [(5, (0 : ℝ))]
        [(7, (0 : ℝ))] = some [(7, (none : Option ℝ))] ∧
    (none : Option ℝ) ≠ some 0 := by
  constructor
  · simp [lyrics_sim, optMap, doc_scores, addAll, upsertAdd, score_contribs,
      query_tfidf, queryNorm, lookupKey, lookupD, divF, sumKey]
  · simp

/-! ## C6 — sparse key set and value formula of `lyrics_sim` -/

/-- **C6.** For every query token multiset, `lyrics_sim`'s map holds a key
for exactly those songs sharing at least one IDF-eligible token with the
query (songs sharing none are absent), and each value with a nonzero
denominator equals the sum over the query tokens of
`(song_tf * idf) * (query_count * idf)` (tokens that are not shared or not
IDF-eligible contribute `0`), divided by `song_norm * query_norm`. -/
theorem C6_lyrics_sim_spec (query : List (ℕ × ℕ))
    (inv_idx : List (ℕ × List (ℕ × ℕ))) (idf_dict : List (ℕ × ℝ))
    (song_norms_dict : List (ℕ × ℝ))
    (hpost : ∀ w ∈ inv_idx, (keysOf w.2).Nodup)
    (hnorm : song_norms_dict = compute_song_norms inv_idx idf_dict) :
    ∃ m, lyrics_sim query inv_idx idf_dict song_norms_dict = some m ∧
      (∀ j, j ∈ keysOf m ↔ ∃ t, t ∈ keysOf query ∧ t ∈ keysOf idf_dict ∧
        ∃ tf, (j, tf) ∈ lookupD inv_idx t []) ∧
      (∀ j ns, j ∈ keysOf m → lookupKey j song_norms_dict = some ns →
        ns * queryNorm query idf_dict ≠ 0 →
        lookupKey j m = some (some (
          ((query.map (fun tc => dtf inv_idx j tc.1 * lookupD idf_dict tc.1 0 *
            ((tc.2 : ℕ) * lookupD idf_dict tc.1 0))).sum) /
          (ns * queryNorm query idf_dict)))) := by
  subst hnorm
  obtain ⟨m, hm⟩ := lyrics_sim_total query inv_idx idf_dict
  refine ⟨m, hm, ?_, ?_⟩
  · intro j
    rw [lyrics_sim_keys hm]
    unfold doc_scores
    rw [mem_keysOf_addAll]
    constructor
    · intro h
      rcases h with h | h
      · exact absurd h (by simp [keysOf])
      · obtain ⟨t, ht, tf, htf⟩ := mem_keysOf_score_contribs.mp h
        obtain ⟨hqk, hik⟩ := mem_keysOf_query_tfidf.mp ht
        exact ⟨t, hqk, hik, tf, htf⟩
    · intro ⟨t, hqk, hik, tf, htf⟩
      right
      exact mem_keysOf_score_contribs.mpr
        ⟨t, mem_keysOf_query_tfidf.mpr ⟨hqk, hik⟩, tf, htf⟩
  · intro j ns hjm hns hnz
    have hjds : j ∈ keysOf (doc_scores query inv_idx idf_dict) := by
      rw [← lyrics_sim_keys hm]
      exact hjm
    have hjcon : j ∈ keysOf (score_contribs query inv_idx idf_dict) := by
      unfold doc_scores at hjds
      rw [mem_keysOf_addAll] at hjds
      rcases hjds with h | h
      · exact absurd h (by simp [keysOf])
      · exact h
    rw [lyrics_sim_lookup hm j, doc_scores_lookup, if_pos hjcon]
    simp only [Option.some_bind]
    rw [hns]
    simp only [Option.map_some']
    unfold divF
    rw [if_neg hnz]
    rw [doc_score_value query inv_idx idf_dict j hpost, qt_dot_sum_eq]

/-- Witness for C6 on a concrete corpus: one song shares the single eligible
token with the query. -/
theorem C6_lyrics_sim_spec_witness :
    ∃ m, lyrics_sim [((5 : ℕ), (1 : ℕ))] [(5, [(7, 2)])] [(5, (1 : ℝ))]
        (compute_song_norms [(5, [(7, 2)])] [(5, 1)]) = some m ∧
      (∀ j, j ∈ keysOf m ↔ ∃ t, t ∈ keysOf [((5 : ℕ), (1 : ℕ))] ∧
        t ∈ keysOf [((5 : ℕ), (1 : ℝ))] ∧
        ∃ tf, (j, tf) ∈ lookupD [((5 : ℕ), [((7 : ℕ), (2 : ℕ))])] t []) ∧
      (∀ j ns, j ∈ keysOf m →
        lookupKey j (compute_song_norms [(5, [(7, 2)])] [(5, 1)]) = some ns →
        ns * queryNorm [(5, 1)] [(5, 1)] ≠ 0 →
        lookupKey j m = some (some (
          (([((5 : ℕ), (1 : ℕ))].map
            (fun tc => dtf [(5, [(7, 2)])] j tc.1 *
              lookupD [((5 : ℕ), (1 : ℝ))] tc.1 0 *
              ((tc.2 : ℕ) * lookupD [((5 : ℕ), (1 : ℝ))] tc.1 0))).sum) /
          (ns * queryNorm [(5, 1)] [(5, 1)])))) :=
  C6_lyrics_sim_spec [(5, 1)] [(5, [(7, 2)])] [(5, 1)]
    (compute_song_norms [(5, [(7, 2)])] [(5, 1)]) (by decide) rfl

theorem mem_keysOf_norm_contribs {inv_idx : List (ℕ × List (ℕ × ℕ))}
    {idf_dict : List (ℕ × ℝ)} {j : ℕ} :
    j ∈ keysOf (norm_contribs inv_idx idf_dict) ↔
      ∃ w ∈ inv_idx, ∃ ut ∈ w.2, ut.1 = j := by
  constructor
  · intro h
    obtain ⟨x, hx⟩ := mem_keysOf_iff_exists.mp h
    unfold norm_contribs at hx
    obtain ⟨w, hw, hx2⟩ := List.mem_flatMap.mp hx
    obtain ⟨ut, hut, hutx⟩ := List.mem_map.mp hx2
    exact ⟨w, hw, ut, hut, congrArg Prod.fst hutx⟩
  · intro ⟨w, hw, ut, hut, hj⟩
    apply mem_keysOf_iff_exists.mpr
    refine ⟨((ut.2 : ℕ) * lookupD idf_dict w.1 0) ^ 2, ?_⟩
    unfold norm_contribs
    apply List.mem_flatMap.mpr
    refine ⟨w, hw, ?_⟩
    have : (fun ut : ℕ × ℕ => (ut.1, ((ut.2 : ℕ) * lookupD idf_dict w.1 0) ^ 2)) ut =
        (j, ((ut.2 : ℕ) * lookupD idf_dict w.1 0) ^ 2) := by
      show (ut.1, ((ut.2 : ℕ) * lookupD idf_dict w.1 0) ^ 2) = _
      rw [hj]
    exact this ▸ List.mem_map_of_mem _ hut

/-! ## C8 — self-similarity -/

/-- **C8 (amended).** Querying `lyrics_sim` with song `S`'s own token
multiset, against an index in which `S`'s posting entries are exactly its
own counts and norms built by `compute_song_norms` from that index, yields
similarity exactly `1` for `S` — provided the query's TF-IDF norm is
nonzero (when every shared token has IDF weight `0` the entry is the NaN of
`0/0` instead, see the counterexample) — and `1` is maximal: every defined
value of the returned map is at most `1`. -/
theorem C8_self_similarity_amended (query : List (ℕ × ℕ))
    (inv_idx : List (ℕ × List (ℕ × ℕ))) (idf_dict : List (ℕ × ℝ)) (S : ℕ)
    (hq : (keysOf query).Nodup) (hidx : (keysOf inv_idx).Nodup)
    (hpost : ∀ w ∈ inv_idx, (keysOf w.2).Nodup)
    (hself : ∀ t, lookupKey S (lookupD inv_idx t []) = lookupKey t query)
    (hnz : queryNorm query idf_dict ≠ 0) :
    ∃ m, lyrics_sim query inv_idx idf_dict
        (compute_song_norms inv_idx idf_dict) = some m ∧
      lookupKey S m = some (some 1) ∧
      (∀ j v, (j, v) ∈ m → ∀ r, v = some r → r ≤ 1) := by
  obtain ⟨m, hm⟩ := lyrics_sim_total query inv_idx idf_dict
  set qnS := ((query_tfidf query idf_dict).map (fun p => p.2 ^ 2)).sum with hqnS
  have hqnS0 : 0 ≤ qnS := by
    apply List.sum_nonneg
    intro x hx
    obtain ⟨p, _, hp⟩ := List.mem_map.mp hx
    rw [← hp]
    positivity
  have hqn : queryNorm query idf_dict = Real.sqrt qnS := rfl
  have hqnSne : qnS ≠ 0 := by
    intro h0
    apply hnz
    rw [hqn, h0, Real.sqrt_zero]
  -- dot product of S equals the squared query norm
  have hdot : sumKey (score_contribs query inv_idx idf_dict) S = qnS := by
    rw [doc_score_value query inv_idx idf_dict S hpost, hqnS]
    congr 1
    apply List.map_congr_left
    intro tq htq
    unfold query_tfidf at htq
    obtain ⟨tc, htc, hf⟩ := List.mem_filterMap.mp htq
    obtain ⟨v, hv, heq⟩ := Option.map_eq_some'.mp hf
    have ht1 : tc.1 = tq.1 := congrArg Prod.fst heq
    have ht2 : (tc.2 : ℕ) * v = tq.2 := by
      have := congrArg Prod.snd heq
      exact this
    have hdtf : dtf inv_idx S tq.1 = (tc.2 : ℕ) := by
      unfold dtf
      rw [hself tq.1, ← ht1, mem_lookupKey hq htc]
      rfl
    have hidf : lookupD idf_dict tq.1 0 = v := by
      unfold lookupD
      rw [← ht1, hv]
      rfl
    rw [hdtf, hidf, ← ht2]
    ring
  -- the squared norm of S equals the squared query norm
  have hns : sumKey (norm_contribs inv_idx idf_dict) S = qnS := by
    rw [song_norm_sq_value inv_idx idf_dict S hidx hpost]
    set G : ℕ → ℝ :=
      fun t => ((((lookupKey t query).getD 0 : ℕ) : ℝ) * lookupD idf_dict t 0) ^ 2
      with hG
    have hGd : ∀ t, (dtf inv_idx S t * lookupD idf_dict t 0) ^ 2 = G t := by
      intro t
      rw [hG]
      unfold dtf
      rw [hself t]
    have e0 : (inv_idx.map
        (fun w => (dtf inv_idx S w.1 * lookupD idf_dict w.1 0) ^ 2)).sum =
        (inv_idx.map (fun w => G w.1)).sum := by
      congr 1
      apply List.map_congr_left
      intro w _
      exact hGd w.1
    rw [e0]
    have e1 : (inv_idx.map (fun w => G w.1)).sum =
        ∑ t ∈ (keysOf inv_idx).toFinset, G t := by
      rw [List.sum_toFinset G hidx]
      unfold keysOf
      rw [List.map_map]
      rfl
    have e2 : (query.map (fun tc => G tc.1)).sum =
        ∑ t ∈ (keysOf query).toFinset, G t := by
      rw [List.sum_toFinset G hq]
      unfold keysOf
      rw [List.map_map]
      rfl
    have hsub : (keysOf query).toFinset ⊆ (keysOf inv_idx).toFinset := by
      intro t ht
      obtain ⟨c, hc⟩ := mem_keysOf_iff_exists.mp (List.mem_toFinset.mp ht)
      apply List.mem_toFinset.mpr
      by_contra hni
      have hnone : lookupKey t inv_idx = none := lookupKey_eq_none_iff.mpr hni
      have hD : lookupD inv_idx t [] = [] := by
        unfold lookupD; rw [hnone]; rfl
      have := hself t
      rw [hD, mem_lookupKey hq hc] at this
      exact absurd this (by simp [lookupKey])
    have hvanish : ∀ t ∈ (keysOf inv_idx).toFinset,
        t ∉ (keysOf query).toFinset → G t = 0 := by
      intro t _ htq
      have : lookupKey t query = none := by
        rw [lookupKey_eq_none_iff]
        intro hmem
        exact htq (List.mem_toFinset.mpr hmem)
      rw [hG]
      simp only []
      rw [this]
      norm_num
    rw [e1, ← Finset.sum_subset hsub hvanish, ← e2]
    have e3 : (query.map (fun tc => G tc.1)).sum =
        (query.map (fun tc =>
          (((tc.2 : ℕ) : ℝ) * lookupD idf_dict tc.1 0) ^ 2)).sum := by
      congr 1
      apply List.map_congr_left
      intro tc htc
      rw [hG]
      simp only []
      rw [mem_lookupKey hq htc]
      rfl
    rw [e3, hqnS, qt_sq_sum_eq]
  -- S is present in the result map
  have hqtne : query_tfidf query idf_dict ≠ [] := by
    intro hnil
    apply hqnSne
    rw [hqnS, hnil]
    rfl
  obtain ⟨tq, htq⟩ := List.exists_mem_of_ne_nil _ hqtne
  obtain ⟨tc, htc, hf⟩ := List.mem_filterMap.mp (by
    unfold query_tfidf at htq
    exact htq)
  obtain ⟨v, hv, heq⟩ := Option.map_eq_some'.mp hf
  have hSpost : (S, tc.2) ∈ lookupD inv_idx tc.1 [] := by
    apply lookupKey_mem
    rw [hself tc.1, mem_lookupKey hq htc]
  have hScon : S ∈ keysOf (score_contribs query inv_idx idf_dict) := by
    apply mem_keysOf_score_contribs.mpr
    refine ⟨tc.1, ?_, tc.2, hSpost⟩
    apply List.mem_map.mpr
    exact ⟨tq, htq, by rw [← heq]⟩
  have hSnormc : S ∈ keysOf (norm_contribs inv_idx idf_dict) := by
    apply mem_keysOf_norm_contribs.mpr
    cases hpk : lookupKey tc.1 inv_idx with
    | none =>
      exfalso
      have hD : lookupD inv_idx tc.1 [] = [] := by
        unfold lookupD; rw [hpk]; rfl
      rw [hD] at hSpost
      exact List.not_mem_nil _ hSpost
    | some posting =>
      have hD : lookupD inv_idx tc.1 [] = posting := by
        unfold lookupD; rw [hpk]; rfl
      exact ⟨(tc.1, posting), lookupKey_mem hpk, (S, tc.2), hD ▸ hSpost, rfl⟩
  refine ⟨m, hm, ?_, ?_⟩
  · rw [lyrics_sim_lookup hm S, doc_scores_lookup, if_pos hScon]
    simp only [Option.some_bind]
    rw [compute_song_norms_lookup, if_pos hSnormc]
    simp only [Option.map_some']
    rw [hdot, hns, hqn, ← Real.sqrt_mul hqnS0, Real.sqrt_mul_self hqnS0]
    unfold divF
    rw [if_neg hqnSne, div_self hqnSne]
  · intro j v hjv r hr
    have := (lyrics_sim_bounds hq hidx hpost rfl hm j v hjv).1 r hr
    exact this.2

/-- Witness for C8: a one-token query matching its own posting entry, with
IDF weight `1`, scores exactly `1` for itself. -/
theorem C8_self_similarity_amended_witness :
    ∃ m, lyrics_sim [((5 : ℕ), (1 : ℕ))] [(5, [(0, 1)])] [(5, (1 : ℝ))]
        (compute_song_norms [(5, [(0, 1)])] [(5, 1)]) = some m ∧
      lookupKey 0 m = some (some 1) ∧
      (∀ j v, (j, v) ∈ m → ∀ r, v = some r → r ≤ 1) := by
  have hself : ∀ t, lookupKey 0 (lookupD [((5 : ℕ), [((0 : ℕ), (1 : ℕ))])] t []) =
      lookupKey t [((5 : ℕ), (1 : ℕ))] := by
    intro t
    by_cases h : (5 : ℕ) = t
    · subst h
      decide
    · simp [lookupKey, lookupD, h]
  have hnz : queryNorm [((5 : ℕ), (1 : ℕ))] [(5, (1 : ℝ))] ≠ 0 := by
    have : queryNorm [((5 : ℕ), (1 : ℕ))] [(5, (1 : ℝ))] = 1 := by
      unfold queryNorm query_tfidf
      simp [lookupKey]
    rw [this]
    exact one_ne_zero
  exact C8_self_similarity_amended [(5, 1)] [(5, [(0, 1)])] [(5, 1)] 0
    (by decide) (by decide) (by decide) hself hnz

/-- **C8 (counterexample to the claim as stated).** In a two-document
corpus, a token held by exactly one document is IDF-eligible but has
`idf = log2(2/2) = 0`.  A song whose only token is that one has zero norm,
the query built from its own lyrics has zero norm, and the self-similarity
entry is the NaN of `0/0` (`none`) — not the claimed `1.0`. -/
theorem C8_counterexample :
    (lookupKey 10 (compute_idf [((10 : ℕ), [((0 : ℕ), (1 : ℕ))]),
      (11, [(1, 1)])] 2 1 1)).isSome = true ∧
    lyrics_sim [((10 : ℕ), (1 : ℕ))] [((10 : ℕ), [((0 : ℕ), (1 : ℕ))]), (11, [(1, 1)])]
        (compute_idf [((10 : ℕ), [((0 : ℕ), (1 : ℕ))]), (11, [(1, 1)])] 2 1 1)
        (compute_song_norms [((10 : ℕ), [((0 : ℕ), (1 : ℕ))]), (11, [(1, 1)])]
          (compute_idf [((10 : ℕ), [((0 : ℕ), (1 : ℕ))]), (11, [(1, 1)])] 2 1 1)) =
      some [(0, (none : Option ℝ))] ∧
    (none : Option ℝ) ≠ some 1 := by
  have hL : Real.logb 2 ((2 : ℝ) / (1 + 1)) = 0 := by
    norm_num
  have hidf : compute_idf [((10 : ℕ), [((0 : ℕ), (1 : ℕ))]), (11, [(1, 1)])] 2 1 1 =
      [(10, (0 : ℝ)), (11, 0)] := by
    unfold compute_idf
    rw [List.filterMap_cons, List.filterMap_cons, List.filterMap_nil]
    rw [if_pos (by norm_num), if_pos (by norm_num)]
    simp only [List.length_cons, List.length_nil]
    rw [show ((2 : ℕ) : ℝ) / (1 + ((1 : ℕ) : ℝ)) = (2 : ℝ) / (1 + 1) by norm_num,
      hL]
  refine ⟨?_, ?_, by simp⟩
  · rw [hidf]
    decide
  · rw [hidf]
    have hnorms : compute_song_norms
        [((10 : ℕ), [((0 : ℕ), (1 : ℕ))]), (11, [(1, 1)])]
        [(10, (0 : ℝ)), (11, 0)] = [(0, 0), (1, 0)] := by
      unfold compute_song_norms compute_song_norms_sq norm_contribs
      simp [addAll, upsertAdd, lookupKey, lookupD]
    rw [hnorms]
    simp [lyrics_sim, optMap, doc_scores, addAll, upsertAdd, score_contribs,
      query_tfidf, queryNorm, lookupKey, lookupD, divF, sumKey]

end SongRec

